import Mathlib

/-!
# Inline-assembly primitives of `09_inline_asm_c.c` and `10_inline_asm_intel.c`

A shallow embedding of the inline-assembly functions of the two source files.

Conventions of the embedding.

* A 64-bit register or memory word holds a natural number below `2 ^ 64`;
  every instruction that can overflow reduces its result modulo `2 ^ 64`.
* Every instruction of an asm template is one Lean function, written in the
  AT&T operand order of the mnemonic (`addq src dst` is the new value of `dst`).
  The body of a C function is the sequence of its template lines, one `let`
  per instruction, with the line quoted next to it.
* The compiler chooses the register of every `"r"` operand.  An output that is
  not marked early-clobber (`&`) may get the register of an input.  A function
  whose template writes `%0` before it has read `%2` takes the chosen registers
  as its first argument (`Binding`) and runs its template on a register file;
  where `%0` is written last, or the registers are named in the template, the
  result does not depend on the choice and the operands are local values.
* An asm statement that has outputs and is not `volatile` may be deleted by the
  compiler when none of its outputs is read afterwards.  A function whose asm
  statement is of this kind takes a first argument `kept`: whether the
  statement is executed.  The build named in the sources, `gcc -O2`, deletes
  such a statement (`kept = false`).
* Byte memory is a function from addresses to bytes; a 64-bit location that
  is the target of a locked instruction is modelled by the word it holds.
-/

namespace InlineAsm

/-- Number of values of a 64-bit register. -/
abbrev W64 : Nat := 2 ^ 64

/-! ## Integer instructions -/

/-- The instruction `mov src, dst`: the new value of `dst`. -/
def movq (src : Nat) : Nat := src

/-- The instruction `add src, dst` on 64-bit operands: the new value of `dst`. -/
def addq (src dst : Nat) : Nat := (dst + src) % W64

/-- The instruction `sub src, dst` on 64-bit operands: the new value of `dst`,
the difference `dst - src` taken in the integers and reduced modulo `2 ^ 64`. -/
def subq (src dst : Nat) : Nat := (((dst : Int) - (src : Int)) % (W64 : Int)).toNat

/-- Two's-complement reading of a 64-bit word. -/
def toSigned64 (x : Nat) : Int := if x < 2 ^ 63 then (x : Int) else (x : Int) - (W64 : Int)

/-- The one-operand instruction `imulq src`: the signed 128-bit product of `rax`
and `src`; the result is the pair `(rdx, rax)` of its high and low halves. -/
def imulq1 (src rax : Nat) : Nat × Nat :=
  let p : Int := toSigned64 rax * toSigned64 src
  let u : Nat := (p % ((2 ^ 128 : Nat) : Int)).toNat
  (u / W64, u % W64)

/-- The two-operand instruction `imul dst, src`: the signed product truncated
to 64 bits, the new value of `dst`. -/
def imulq2 (src dst : Nat) : Nat :=
  ((toSigned64 dst * toSigned64 src) % (W64 : Int)).toNat

/-- A general-purpose register, by its number (`rax` 0, `rcx` 1, `rdx` 2,
`rbx` 3, `rsi` 6, `rdi` 7, ...). -/
abbrev Reg := Nat

/-- The registers that the compiler chooses for the operands `%0`, `%1`, `%2` of
a template with the constraints `"=r"`, `"r"`, `"r"`.  The two inputs are in
different registers; the output, which carries no `&`, may be in any register,
also in that of an input. -/
structure Binding where
  /-- Register of the output `%0`. -/
  r0 : Reg
  /-- Register of the first input `%1`. -/
  r1 : Reg
  /-- Register of the second input `%2`. -/
  r2 : Reg
  /-- The two inputs are in different registers. -/
  inputs_apart : r1 ≠ r2

/-- A binding with every operand in a register of its own: `%0` in `rax`, `%1`
in `rdi`, `%2` in `rsi`. -/
def apartBinding : Binding := { r0 := 0, r1 := 7, r2 := 6, inputs_apart := by decide }

/-- A binding with the output in the register of the second input: `%0` and
`%2` in `rsi`, `%1` in `rdi`. -/
def sharedBinding : Binding := { r0 := 6, r1 := 7, r2 := 6, inputs_apart := by decide }

/-- The register file on entry to a template: `%1` and `%2` hold the two
inputs (the other registers, never read before they are written, hold 0). -/
def loadInputs (bd : Binding) (v1 v2 : Nat) : Reg → Nat :=
  Function.update (Function.update (fun _ => 0) bd.r1 v1) bd.r2 v2

/-- The function `basic_add` of `09_inline_asm_c.c`, with the registers of its
operands. -/
def basic_add (bd : Binding) (a b : Nat) : Nat :=
  let rf := loadInputs bd a b                                      -- "r" (a), "r" (b)
  let rf := Function.update rf bd.r0 (movq (rf bd.r1))             -- movq %1, %0
  let rf := Function.update rf bd.r0 (addq (rf bd.r2) (rf bd.r0))  -- addq %2, %0
  rf bd.r0                                                         -- "=r" (result)

/-- The function `add_intel_explicit` of `10_inline_asm_intel.c`, with the
registers of its operands. -/
def add_intel_explicit (bd : Binding) (a b : Nat) : Nat :=
  let rf := loadInputs bd a b                                      -- "r" (a), "r" (b)
  let rf := Function.update rf bd.r0 (movq (rf bd.r1))             -- mov %0, %1
  let rf := Function.update rf bd.r0 (addq (rf bd.r2) (rf bd.r0))  -- add %0, %2
  rf bd.r0                                                         -- "=r" (result)

/-- The function `multiply_rax` of `09_inline_asm_c.c`. -/
def multiply_rax (a b : Nat) : Nat :=
  let rax := movq a               -- movq %1, %%rax
  let (_rdx, rax) := imulq1 b rax -- imulq %2
  let r0 := movq rax              -- movq %%rax, %0
  r0

/-- The function `multiply_intel` of `10_inline_asm_intel.c`. -/
def multiply_intel (a b : Nat) : Nat :=
  let rax := movq a         -- mov rax, %1
  let rax := imulq2 b rax   -- imul rax, %2
  let r0 := movq rax        -- mov %0, rax
  r0

/-- The function `subtract_att` of `10_inline_asm_intel.c`, with the registers
of its operands. -/
def subtract_att (bd : Binding) (a b : Nat) : Nat :=
  let rf := loadInputs bd a b                                      -- "r" (a), "r" (b)
  let rf := Function.update rf bd.r0 (movq (rf bd.r1))             -- movq %1, %0
  let rf := Function.update rf bd.r0 (subq (rf bd.r2) (rf bd.r0))  -- subq %2, %0
  rf bd.r0                                                         -- "=r" (result)

/-- The function `subtract_intel` of `10_inline_asm_intel.c`, with the registers
of its operands. -/
def subtract_intel (bd : Binding) (a b : Nat) : Nat :=
  let rf := loadInputs bd a b                                      -- "r" (a), "r" (b)
  let rf := Function.update rf bd.r0 (movq (rf bd.r1))             -- mov %0, %1
  let rf := Function.update rf bd.r0 (subq (rf bd.r2) (rf bd.r0))  -- sub %0, %2
  rf bd.r0                                                         -- "=r" (result)

/-! ## Bit-scan and population-count instructions -/

/-- Machine state read and written by the string instructions. -/
structure StringState where
  /-- Byte memory. -/
  mem : Nat → Nat
  /-- Destination pointer. -/
  rdi : Nat
  /-- Source pointer. -/
  rsi : Nat
  /-- Repeat count. -/
  rcx : Nat
  /-- Direction flag. -/
  df : Bool

/-- The instruction `cld`. -/
def cld (s : StringState) : StringState := { s with df := false }

/-- Pointer update of a byte string instruction: up by one when the direction
flag is clear, down by one when it is set, modulo `2 ^ 64`. -/
def advance (df : Bool) (p : Nat) : Nat :=
  if df then (p + (W64 - 1)) % W64 else (p + 1) % W64

/-- The instruction `movsb`: one byte from `[rsi]` to `[rdi]`. -/
def movsb (s : StringState) : StringState :=
  { s with mem := Function.update s.mem s.rdi (s.mem s.rsi),
           rdi := advance s.df s.rdi,
           rsi := advance s.df s.rsi }

/-- The instruction `stosb`: the byte in `al` to `[rdi]`. -/
def stosb (rax : Nat) (s : StringState) : StringState :=
  { s with mem := Function.update s.mem s.rdi (rax % 256),
           rdi := advance s.df s.rdi }

/-- The prefix `rep`: the instruction is repeated, `rcx` counting down, until
`rcx` is zero.  The first argument bounds the number of iterations. -/
def rep (body : StringState → StringState) : Nat → StringState → StringState
  | 0, s => s
  | fuel + 1, s =>
    if s.rcx = 0 then s
    else
      let s1 := body s
      rep body fuel { s1 with rcx := s1.rcx - 1 }

/-- The function `copy_memory_asm` of `09_inline_asm_c.c`: the machine state it
leaves, from the direction flag and the memory on entry.  The asm statement is
not `volatile` and its outputs `dest`, `src`, `n` are not read afterwards:
`kept` says whether the compiler keeps the statement. -/
def copy_memory_asm_state (kept df : Bool) (m : Nat → Nat) (dest src n : Nat) :
    StringState :=
  let s : StringState := { mem := m, rdi := dest, rsi := src, rcx := n, df := df }
  if kept then
    let s := cld s                 -- cld
    let s := rep movsb s.rcx s     -- rep movsb
    s
  else s

/-- The function `copy_memory_asm` of `09_inline_asm_c.c`: the memory it leaves. -/
def copy_memory_asm (kept df : Bool) (m : Nat → Nat) (dest src n : Nat) : Nat → Nat :=
  (copy_memory_asm_state kept df m dest src n).mem

/-- The function `copy_memory_intel` of `10_inline_asm_intel.c`: the machine
state it leaves.  The asm statement is not `volatile` and its outputs are not
read afterwards: `kept` says whether the compiler keeps the statement. -/
def copy_memory_intel_state (kept df : Bool) (m : Nat → Nat) (dest src n : Nat) :
    StringState :=
  let s : StringState := { mem := m, rdi := dest, rsi := src, rcx := n, df := df }
  if kept then
    let s := cld s                 -- cld
    let s := rep movsb s.rcx s     -- rep movsb
    s
  else s

/-- The function `copy_memory_intel` of `10_inline_asm_intel.c`: the memory it leaves. -/
def copy_memory_intel (kept df : Bool) (m : Nat → Nat) (dest src n : Nat) : Nat → Nat :=
  (copy_memory_intel_state kept df m dest src n).mem

/-- The function `fill_memory_asm` of `09_inline_asm_c.c`: the machine state it
leaves; `value` is in `al`.  The asm statement is not `volatile` and its outputs
`dest`, `n` are not read afterwards: `kept` says whether the compiler keeps the
statement. -/
def fill_memory_asm_state (kept df : Bool) (m : Nat → Nat) (dest value n : Nat) :
    StringState :=
  let s : StringState := { mem := m, rdi := dest, rsi := 0, rcx := n, df := df }
  if kept then
    let s := cld s                       -- cld
    let s := rep (stosb value) s.rcx s   -- rep stosb
    s
  else s

/-- The function `fill_memory_asm` of `09_inline_asm_c.c`: the memory it leaves. -/
def fill_memory_asm (kept df : Bool) (m : Nat → Nat) (dest value n : Nat) : Nat → Nat :=
  (fill_memory_asm_state kept df m dest value n).mem

/-- The function `fill_memory_intel` of `10_inline_asm_intel.c`: the machine
state it leaves; `value` is in `al`.  The asm statement is not `volatile` and its
outputs are not read afterwards: `kept` says whether the compiler keeps the
statement. -/
def fill_memory_intel_state (kept df : Bool) (m : Nat → Nat) (dest value n : Nat) :
    StringState :=
  let s : StringState := { mem := m, rdi := dest, rsi := 0, rcx := n, df := df }
  if kept then
    let s := cld s                       -- cld
    let s := rep (stosb value) s.rcx s   -- rep stosb
    s
  else s

/-- The function `fill_memory_intel` of `10_inline_asm_intel.c`: the memory it leaves. -/
def fill_memory_intel (kept df : Bool) (m : Nat → Nat) (dest value n : Nat) : Nat → Nat :=
  (fill_memory_intel_state kept df m dest value n).mem

/-! ## Locked instructions and atomic functions

A function on a 64-bit location takes the word the location holds and returns
the word it holds afterwards, next to the C return value. -/

/-- The instruction `lock cmpxchg src, m`: `rax` is compared with the memory
word; when equal the word becomes `src` and `ZF` is set, otherwise `rax` becomes
the word and `ZF` is cleared.  The result is `(ZF, rax, memory word)`. -/
def cmpxchgq (src m rax : Nat) : Bool × Nat × Nat :=
  if rax = m then (true, rax, src) else (false, m, m)

/-- The instruction `sete dst`: 1 when `ZF` is set, else 0. -/
def sete (zf : Bool) : Nat := if zf then 1 else 0

/-- The instruction `lock inc m` on a 64-bit memory word: the new word. -/
def incq (m : Nat) : Nat := (m + 1) % W64

/-- The function `atomic_increment` of `09_inline_asm_c.c`: the new word. -/
def atomic_increment (cell : Nat) : Nat :=
  incq cell                      -- lock incq %0

/-- The function `atomic_increment_intel` of `10_inline_asm_intel.c`: the new
word.  The only output of the asm statement is the pointer, `"+r" (ptr)`, which
is not read afterwards, and the statement is not `volatile`: `kept` says whether
the compiler keeps it. -/
def atomic_increment_intel (kept : Bool) (cell : Nat) : Nat :=
  if kept then incq cell         -- lock inc QWORD PTR [%0]
  else cell

/-- The function `compare_and_swap` of `09_inline_asm_c.c`: the return value and
the new word. -/
def compare_and_swap (cell old_val new_val : Nat) : Nat × Nat :=
  let rax := old_val                       -- "a" (old_val)
  let (zf, _rax, cell) := cmpxchgq new_val cell rax  -- lock cmpxchgq %2, %0
  let r1 := sete zf                        -- sete %1
  (r1, cell)

/-- The function `compare_and_swap_intel` of `10_inline_asm_intel.c`: the return
value and the new word. -/
def compare_and_swap_intel (cell old_val new_val : Nat) : Nat × Nat :=
  let rax := old_val                       -- "a" (old_val)
  let (zf, _rax, cell) := cmpxchgq new_val cell rax  -- lock cmpxchg [%1], %3
  let r0 := sete zf                        -- sete %0
  (r0, cell)

/-- The instruction `xchg reg, m`: register and memory word change places.  The
result is `(register, memory word)`. -/
def xchgq (reg m : Nat) : Nat × Nat := (m, reg)

/-- The function `atomic_exchange` of `09_inline_asm_c.c`: the return value and
the new word. -/
def atomic_exchange (cell new_val : Nat) : Nat × Nat :=
  let r0 := new_val                  -- "0" (new_val)
  let (r0, cell) := xchgq r0 cell    -- xchgq %0, %1
  (r0, cell)

/-- The function `atomic_exchange_intel` of `10_inline_asm_intel.c`: the return
value and the new word. -/
def atomic_exchange_intel (cell new_val : Nat) : Nat × Nat :=
  let old_val := new_val                    -- uint64_t old_val = new_val;
  let (old_val, cell) := xchgq old_val cell -- xchg [%1], %0
  (old_val, cell)

/-! ## CPU identification

The four words that the processor reports for a leaf are a parameter of the
embedding: `hw leaf = (eax, ebx, ecx, edx)`. -/

/-- The function `cpuid` of `09_inline_asm_c.c`: the words `(eax, ebx, ecx, edx)`
stored through the four pointers. -/
def cpuid (hw : Nat → Nat × Nat × Nat × Nat) (leaf : Nat) : Nat × Nat × Nat × Nat :=
  hw leaf                            -- cpuid

/-- The function `cpuid_intel` of `10_inline_asm_intel.c`. -/
def cpuid_intel (hw : Nat → Nat × Nat × Nat × Nat) (leaf : Nat) : Nat × Nat × Nat × Nat :=
  hw leaf                            -- cpuid

/-- Byte `k` of a word, least significant first. -/
def byteOf (w k : Nat) : Nat := w / 256 ^ k % 256

/-- The store `((uint32_t *)buf)[k] = w` into a byte buffer: four bytes, least
significant first, at the byte offsets `4 * k` to `4 * k + 3`. -/
def store32 (buf : Nat → Nat) (k w : Nat) : Nat → Nat :=
  let buf := Function.update buf (4 * k) (byteOf w 0)
  let buf := Function.update buf (4 * k + 1) (byteOf w 1)
  let buf := Function.update buf (4 * k + 2) (byteOf w 2)
  let buf := Function.update buf (4 * k + 3) (byteOf w 3)
  buf

/-- The function `get_cpu_vendor` of `09_inline_asm_c.c`: the buffer `vendor`
after the call, from the buffer before it. -/
def get_cpu_vendor (hw : Nat → Nat × Nat × Nat × Nat) (vendor : Nat → Nat) : Nat → Nat :=
  let (_eax, ebx, ecx, edx) := cpuid hw 0   -- cpuid(0, &eax, &ebx, &ecx, &edx);
  let vendor := store32 vendor 0 ebx        -- ((uint32_t *)vendor)[0] = ebx;
  let vendor := store32 vendor 1 edx        -- ((uint32_t *)vendor)[1] = edx;
  let vendor := store32 vendor 2 ecx        -- ((uint32_t *)vendor)[2] = ecx;
  let vendor := Function.update vendor 12 0 -- vendor[12] = '\0';
  vendor

/-- The function `get_cpu_vendor_intel` of `10_inline_asm_intel.c`. -/
def get_cpu_vendor_intel (hw : Nat → Nat × Nat × Nat × Nat) (vendor : Nat → Nat) :
    Nat → Nat :=
  let (_eax, ebx, ecx, edx) := cpuid_intel hw 0 -- cpuid_intel(0, &eax, &ebx, &ecx, &edx);
  let vendor := store32 vendor 0 ebx        -- ((uint32_t *)vendor)[0] = ebx;
  let vendor := store32 vendor 1 edx        -- ((uint32_t *)vendor)[1] = edx;
  let vendor := store32 vendor 2 ecx        -- ((uint32_t *)vendor)[2] = ecx;
  let vendor := Function.update vendor 12 0 -- vendor[12] = '\0';
  vendor

/-! ## Comparison, flags and conditional moves -/

/-- The status flags that a comparison sets. -/
structure Flags where
  /-- Zero flag. -/
  zf : Bool
  /-- Sign flag. -/
  sf : Bool
  /-- Overflow flag. -/
  ovf : Bool
  /-- Carry flag. -/
  cf : Bool

/-- The condition `l` (less) of `jl` and `cmovl`: `SF ≠ OF`. -/
def condL (f : Flags) : Bool := f.sf != f.ovf

/-- The instruction `cmp src, dst` on 64-bit operands: the flags of the
subtraction `dst - src`, whose result is discarded. -/
def cmpq (src dst : Nat) : Flags :=
  let r := subq src dst
  { zf := decide (r = 0),
    sf := decide (2 ^ 63 ≤ r),
    ovf := decide (toSigned64 r ≠ toSigned64 dst - toSigned64 src),
    cf := decide (dst < src) }

/-- Number of values of a 32-bit register. -/
abbrev W32 : Nat := 2 ^ 32

/-- Two's-complement reading of a 32-bit word. -/
def toSigned32 (x : Nat) : Int := if x < 2 ^ 31 then (x : Int) else (x : Int) - (W32 : Int)

/-- The 32-bit word that holds a C `int`. -/
def toWord32 (a : Int) : Nat := (a % (W32 : Int)).toNat

/-- The instruction `mov src, dst` on 32-bit operands. -/
def movl (src : Nat) : Nat := src

/-- The instruction `sub src, dst` on 32-bit operands: the new value of `dst`. -/
def subl (src dst : Nat) : Nat := (((dst : Int) - (src : Int)) % (W32 : Int)).toNat

/-- The instruction `cmp src, dst` on 32-bit operands: the flags of the
subtraction `dst - src`, whose result is discarded. -/
def cmpl (src dst : Nat) : Flags :=
  let r := subl src dst
  { zf := decide (r = 0),
    sf := decide (2 ^ 31 ≤ r),
    ovf := decide (toSigned32 r ≠ toSigned32 dst - toSigned32 src),
    cf := decide (dst < src) }

/-- The instruction `cmovl src, dst`: the new value of `dst`, `src` when the
condition `l` holds. -/
def cmovl (f : Flags) (src dst : Nat) : Nat := if condL f then src else dst

/-- The function `max_intel` of `10_inline_asm_intel.c`, on C `int` values, with
the registers of its operands. -/
def max_intel (bd : Binding) (a b : Int) : Int :=
  let rf := loadInputs bd (toWord32 a) (toWord32 b)                -- "r" (a), "r" (b)
  let rf := Function.update rf bd.r0 (movl (rf bd.r1))             -- mov %0, %1
  let f := cmpl (rf bd.r2) (rf bd.r0)                              -- cmp %0, %2
  let rf := Function.update rf bd.r0 (cmovl f (rf bd.r2) (rf bd.r0))  -- cmovl %0, %2
  toSigned32 (rf bd.r0)                                            -- "=r" (result)

/-! ## SSE instructions and vector functions

Single-precision numbers are the elements of a type `α`, whose `+` and `*` are
single-precision addition and multiplication: the lanes of `addps` and `mulps`
and the C operators of the scalar loops use the same operations.  No law of
arithmetic is assumed of them unless a theorem says so.  Memory holds one number
per element index, and a `float *` is the index of the element it points to, so
`addq $16` moves a pointer by 4 elements. -/

/-- An XMM register: four single-precision lanes, lane 0 lowest. -/
structure Xmm (α : Type) where
  /-- Lane 0. -/
  x0 : α
  /-- Lane 1. -/
  x1 : α
  /-- Lane 2. -/
  x2 : α
  /-- Lane 3. -/
  x3 : α

/-- Lane `i` of a register, for `i` from 0 to 3. -/
def Xmm.lane {α : Type} (v : Xmm α) (i : Nat) : α :=
  match i % 4 with
  | 0 => v.x0
  | 1 => v.x1
  | 2 => v.x2
  | _ => v.x3

/-- The instruction `movups (p), dst`: four consecutive elements from memory. -/
def movups_load {α : Type} (m : Nat → α) (p : Nat) : Xmm α :=
  ⟨m p, m (p + 1), m (p + 2), m (p + 3)⟩

/-- The instruction `movups src, (p)`: four consecutive elements to memory. -/
def movups_store {α : Type} (m : Nat → α) (p : Nat) (v : Xmm α) : Nat → α :=
  let m := Function.update m p v.x0
  let m := Function.update m (p + 1) v.x1
  let m := Function.update m (p + 2) v.x2
  let m := Function.update m (p + 3) v.x3
  m

/-- The instruction `addps src, dst`: lane by lane `dst + src`. -/
def addps {α : Type} [Add α] (src dst : Xmm α) : Xmm α :=
  ⟨dst.x0 + src.x0, dst.x1 + src.x1, dst.x2 + src.x2, dst.x3 + src.x3⟩

/-- The instruction `mulps src, dst`: lane by lane `dst * src`. -/
def mulps {α : Type} [Mul α] (src dst : Xmm α) : Xmm α :=
  ⟨dst.x0 * src.x0, dst.x1 * src.x1, dst.x2 * src.x2, dst.x3 * src.x3⟩

/-- The instruction `xorps r, r`: all four lanes zero. -/
def xorps_self {α : Type} [Zero α] : Xmm α := ⟨0, 0, 0, 0⟩

/-- The instruction `movaps src, dst`. -/
def movaps {α : Type} (src : Xmm α) : Xmm α := src

/-- The instruction `shufps $imm, src, dst`: lanes 0 and 1 of the result are the
lanes of `dst` selected by bits 1:0 and 3:2 of `imm`, lanes 2 and 3 the lanes of
`src` selected by bits 5:4 and 7:6. -/
def shufps {α : Type} (imm : Nat) (src dst : Xmm α) : Xmm α :=
  ⟨dst.lane (imm % 4), dst.lane (imm / 4 % 4), src.lane (imm / 16 % 4), src.lane (imm / 64 % 4)⟩

/-- The instruction `movss src, m`: lane 0 to memory. -/
def movss_store {α : Type} (src : Xmm α) : α := src.x0

/-- The 4-wide loop of `vector_add_sse`, `for (i = 0; i + 4 <= n; i += 4)`, from
index `i`: the index and the memory at its exit.  The first argument bounds the
number of iterations; `none` when it is used up. -/
def vector_add_sse_chunks {α : Type} [Add α] (result a b n : Nat) :
    Nat → Nat → (Nat → α) → Option (Nat × (Nat → α))
  | 0, _, _ => none
  | fuel + 1, i, m =>
    if (i + 4) % W64 ≤ n then                        -- i + 4 <= n
      let xmm0 := movups_load m (a + i)              -- movups (%1), %%xmm0
      let xmm1 := movups_load m (b + i)              -- movups (%2), %%xmm1
      let xmm0 := addps xmm1 xmm0                    -- addps %%xmm1, %%xmm0
      let m := movups_store m (result + i) xmm0      -- movups %%xmm0, (%0)
      vector_add_sse_chunks result a b n fuel ((i + 4) % W64) m  -- i += 4
    else some (i, m)

/-- The scalar loop of `vector_add_sse`, `for (; i < n; i++)`, from index `i`:
the memory at its exit. -/
def vector_add_sse_rest {α : Type} [Add α] (result a b n : Nat) :
    Nat → Nat → (Nat → α) → Option (Nat → α)
  | 0, _, _ => none
  | fuel + 1, i, m =>
    if i < n then                                    -- i < n
      let m := Function.update m (result + i) (m (a + i) + m (b + i))
                                                     -- result[i] = a[i] + b[i];
      vector_add_sse_rest result a b n fuel ((i + 1) % W64) m  -- i++
    else some m

/-- The function `vector_add_sse` of `09_inline_asm_c.c`: the memory it leaves,
`none` when a loop does not end. -/
def vector_add_sse {α : Type} [Add α] (m : Nat → α) (result a b n : Nat) :
    Option (Nat → α) :=
  match vector_add_sse_chunks result a b n (n / 4 + 1) 0 m with
  | none => none
  | some (i, m) => vector_add_sse_rest result a b n (n + 1) i m

/-- The loop of the asm statement of `dot_product_sse`, from label `1:` to label
`2:`: the operands `%0`, `%1`, `%2` and the accumulator `xmm2` at its exit. -/
def dot_product_sse_loop {α : Type} [Add α] [Mul α] (m : Nat → α) :
    Nat → Nat → Nat → Nat → Xmm α → Option (Nat × Nat × Nat × Xmm α)
  | 0, _, _, _, _ => none
  | fuel + 1, a, b, n, xmm2 =>
    if condL (cmpq 4 n) then                   -- cmpq $4, %2 ; jl 2f
      some (a, b, n, xmm2)
    else
      let xmm0 := movups_load m a              -- movups (%0), %%xmm0
      let xmm1 := movups_load m b              -- movups (%1), %%xmm1
      let xmm0 := mulps xmm1 xmm0              -- mulps %%xmm1, %%xmm0
      let xmm2 := addps xmm0 xmm2              -- addps %%xmm0, %%xmm2
      let a := a + 4                           -- addq $16, %0
      let b := b + 4                           -- addq $16, %1
      let n := subq 4 n                        -- subq $4, %2
      dot_product_sse_loop m fuel a b n xmm2   -- jmp 1b

/-- The horizontal sum of the asm statement of `dot_product_sse`, after label
`2:`: the value stored to `result`. -/
def dot_product_sse_reduce {α : Type} [Add α] (xmm2 : Xmm α) : α :=
  let xmm0 := movaps xmm2                      -- movaps %%xmm2, %%xmm0
  let xmm0 := shufps 0x4E xmm0 xmm0            -- shufps $0x4E, %%xmm0, %%xmm0
  let xmm2 := addps xmm0 xmm2                  -- addps %%xmm0, %%xmm2
  let xmm0 := movaps xmm2                      -- movaps %%xmm2, %%xmm0
  let xmm0 := shufps 0xB1 xmm0 xmm0            -- shufps $0xB1, %%xmm0, %%xmm0
  let xmm2 := addps xmm0 xmm2                  -- addps %%xmm0, %%xmm2
  movss_store xmm2                             -- movss %%xmm2, %3

/-- The scalar loop of `dot_product_sse`, `for (i = 0; i < n; i++)`, from index
`i`: the value of `result` at its exit. -/
def dot_product_sse_rest {α : Type} [Add α] [Mul α] (m : Nat → α) (a b n : Nat) :
    Nat → Nat → α → Option α
  | 0, _, _ => none
  | fuel + 1, i, result =>
    if i < n then                                        -- i < n
      let result := result + m (a + i) * m (b + i)       -- result += a[i] * b[i];
      dot_product_sse_rest m a b n fuel ((i + 1) % W64) result  -- i++
    else some result

/-- The function `dot_product_sse` of `09_inline_asm_c.c`: the value returned,
`none` when a loop does not end. -/
def dot_product_sse {α : Type} [Add α] [Mul α] [Zero α] (m : Nat → α) (a b n : Nat) :
    Option α :=
  let xmm2 : Xmm α := xorps_self               -- xorps %%xmm2, %%xmm2
  match dot_product_sse_loop m (n / 4 + 1) a b n xmm2 with
  | none => none
  | some (a, b, n, xmm2) =>
    let result := dot_product_sse_reduce xmm2
    dot_product_sse_rest m a b n (n + 1) 0 result

/-- The lane accumulator `L_j` after `k` chunks: from 0, the products
`a[4c + j] * b[4c + j]` added in ascending chunk order `c`. -/
def laneAcc {α : Type} [Add α] [Mul α] [Zero α] (m : Nat → α) (a b j : Nat) : Nat → α
  | 0 => 0
  | k + 1 => laneAcc m a b j k + m (a + 4 * k + j) * m (b + 4 * k + j)

/-- The products `a[i] * b[i]` of the `r` elements from index `start` on, added
to `acc` one by one in ascending index order. -/
def addProducts {α : Type} [Add α] [Mul α] (m : Nat → α) (a b start : Nat) (acc : α) :
    Nat → α
  | 0 => acc
  | r + 1 => addProducts m a b start acc r + m (a + start + r) * m (b + start + r)

/-- A memory of integers that holds the given list from index 0 on, and 0
elsewhere. -/
def memOfList (l : List Int) : Nat → Int := fun p => l.getD p 0

/-- The accumulator register after `k` chunks: the four lane accumulators. -/
def laneRegister {α : Type} [Add α] [Mul α] [Zero α] (m : Nat → α) (a b k : Nat) : Xmm α :=
  ⟨laneAcc m a b 0 k, laneAcc m a b 1 k, laneAcc m a b 2 k, laneAcc m a b 3 k⟩

/-- Number of chunks that the loop of `dot_product_sse` consumes: `n / 4` when
`n` is non-negative as a signed 64-bit number, none otherwise. -/
def chunksConsumed (n : Nat) : Nat := if n < 2 ^ 63 then n / 4 else 0

/-- The condition `g` (greater) of `cmovg`: `ZF = 0` and `SF = OF`. -/
def condG (f : Flags) : Bool := !f.zf && (f.sf == f.ovf)

/-- The instruction `cmovg src, dst`: the new value of `dst`, `src` when the
condition `g` holds. -/
def cmovg (f : Flags) (src dst : Nat) : Nat := if condG f then src else dst

/-- The function `min_intel` of `10_inline_asm_intel.c`, on C `int` values, with
the registers of its operands. -/
def min_intel (bd : Binding) (a b : Int) : Int :=
  let rf := loadInputs bd (toWord32 a) (toWord32 b)                -- "r" (a), "r" (b)
  let rf := Function.update rf bd.r0 (movl (rf bd.r1))             -- mov %0, %1
  let f := cmpl (rf bd.r2) (rf bd.r0)                              -- cmp %0, %2
  let rf := Function.update rf bd.r0 (cmovg f (rf bd.r2) (rf bd.r0))  -- cmovg %0, %2
  toSigned32 (rf bd.r0)                                            -- "=r" (result)

/-- The function `vector_add_intel` of `10_inline_asm_intel.c`: the two C loops
of `vector_add_sse`, the asm statement with the same four instructions in Intel
syntax (`movups xmm0, [%1]`, `movups xmm1, [%2]`, `addps xmm0, xmm1`,
`movups [%0], xmm0`). -/
def vector_add_intel {α : Type} [Add α] (m : Nat → α) (result a b n : Nat) :
    Option (Nat → α) :=
  match vector_add_sse_chunks result a b n (n / 4 + 1) 0 m with
  | none => none
  | some (i, m) => vector_add_sse_rest result a b n (n + 1) i m

/-! ## Arithmetic: proofs -/

theorem toSigned64_emod (x : Nat) :
    toSigned64 x % (W64 : Int) = (x : Int) % (W64 : Int) := by
  unfold toSigned64
  split
  · rfl
  · rw [Int.sub_emod, Int.emod_self, sub_zero, Int.emod_emod]

theorem signed_mul_emod (a b : Nat) :
    (toSigned64 a * toSigned64 b) % (W64 : Int) = ((a * b : Nat) : Int) % (W64 : Int) := by
  rw [Int.mul_emod, toSigned64_emod, toSigned64_emod, ← Int.mul_emod]
  push_cast
  rfl

theorem imulq1_low (src rax : Nat) : (imulq1 src rax).2 = (rax * src) % W64 := by
  unfold imulq1
  simp only
  have h128 : (((2 ^ 128 : Nat) : Int)) = (W64 : Int) * (W64 : Int) := by norm_num [W64]
  have hnn : 0 ≤ (toSigned64 rax * toSigned64 src) % ((2 ^ 128 : Nat) : Int) :=
    Int.emod_nonneg _ (by norm_num)
  apply Int.ofNat.inj
  show (((((toSigned64 rax * toSigned64 src) % ((2 ^ 128 : Nat) : Int)).toNat % W64 : Nat) : Int))
      = (((rax * src) % W64 : Nat) : Int)
  rw [Int.natCast_mod, Int.toNat_of_nonneg hnn, Int.natCast_mod]
  rw [Int.emod_emod_of_dvd _ (by rw [h128]; exact Dvd.intro _ rfl)]
  exact signed_mul_emod rax src

theorem subq_cast (src dst : Nat) :
    ((subq src dst : Nat) : Int) = ((dst : Int) - (src : Int)) % ((2 : Int) ^ 64) := by
  unfold subq
  have hW : ((W64 : Nat) : Int) = (2 : Int) ^ 64 := by norm_num [W64]
  rw [Int.toNat_of_nonneg (Int.emod_nonneg _ (by norm_num [W64])), hW]

theorem subq_of_le (src dst : Nat) (h : src ≤ dst) (hd : dst < 2 ^ 64) :
    subq src dst = dst - src := by
  have h1 := subq_cast src dst
  have h2 : ((dst : Int) - (src : Int)) % ((2 : Int) ^ 64) = (dst : Int) - (src : Int) :=
    Int.emod_eq_of_lt (by omega) (by omega)
  omega

theorem subq_of_lt (src dst : Nat) (h : dst < src) (hs : src < 2 ^ 64) :
    subq src dst = dst + 2 ^ 64 - src := by
  have h1 := subq_cast src dst
  have h2 : ((dst : Int) - (src : Int)) % ((2 : Int) ^ 64)
      = (dst : Int) - (src : Int) + (2 : Int) ^ 64 := by
    rw [← Int.add_emod_self]
    exact Int.emod_eq_of_lt (by omega) (by omega)
  omega

theorem loadInputs_r1 (bd : Binding) (v1 v2 : Nat) : loadInputs bd v1 v2 bd.r1 = v1 := by
  unfold loadInputs
  rw [Function.update_noteq bd.inputs_apart, Function.update_same]

theorem loadInputs_r2 (bd : Binding) (v1 v2 : Nat) : loadInputs bd v1 v2 bd.r2 = v2 := by
  unfold loadInputs
  rw [Function.update_same]

/-- With the output apart from the second input, `mov` then `add` give the sum
modulo `2^64`. -/
theorem basic_add_apart (bd : Binding) (h : bd.r0 ≠ bd.r2) (a b : Nat) :
    basic_add bd a b = (a + b) % 2 ^ 64 ∧ add_intel_explicit bd a b = (a + b) % 2 ^ 64 := by
  have h' : bd.r2 ≠ bd.r0 := fun e => h e.symm
  constructor
  · show Function.update (Function.update (loadInputs bd a b) bd.r0 _) bd.r0 _ bd.r0 = _
    rw [Function.update_same, Function.update_same, Function.update_noteq h',
      loadInputs_r1, loadInputs_r2]
    rfl
  · show Function.update (Function.update (loadInputs bd a b) bd.r0 _) bd.r0 _ bd.r0 = _
    rw [Function.update_same, Function.update_same, Function.update_noteq h',
      loadInputs_r1, loadInputs_r2]
    rfl

/-- With the output in the register of the second input, `mov` overwrites `b`
before `add` reads it: the result is `a + a` modulo `2^64`. -/
theorem basic_add_shared (bd : Binding) (h : bd.r0 = bd.r2) (a b : Nat) :
    basic_add bd a b = (a + a) % 2 ^ 64 ∧ add_intel_explicit bd a b = (a + a) % 2 ^ 64 := by
  constructor
  · show Function.update (Function.update (loadInputs bd a b) bd.r0 _) bd.r0 _ bd.r0 = _
    rw [Function.update_same, ← h, Function.update_same, loadInputs_r1]
    rfl
  · show Function.update (Function.update (loadInputs bd a b) bd.r0 _) bd.r0 _ bd.r0 = _
    rw [Function.update_same, ← h, Function.update_same, loadInputs_r1]
    rfl

/-- C1, at the call `basic_add(10, 21)` with the output `%0` in the register of
the input `%2`, which the constraint `"=r"` without `&` allows: `movq %1, %0`
overwrites `b` before `addq %2, %0` reads it, and `basic_add` and
`add_intel_explicit` return 20, not `(10 + 21) mod 2^64 = 31`; with the operands
in registers of their own they return 31. -/
theorem basic_add_shared_register :
    basic_add sharedBinding 10 21 = 20 ∧
    add_intel_explicit sharedBinding 10 21 = 20 ∧
    (10 + 21) % 2 ^ 64 = 31 ∧
    basic_add apartBinding 10 21 = 31 ∧
    add_intel_explicit apartBinding 10 21 = 31 := by
  decide

/-- C2: for all `a`, `b` (so for all 64-bit unsigned ones), `multiply_rax a b` is the low 64 bits
of the unsigned product, `(a * b) mod 2^64`, although the instruction is the
signed widening multiply whose high half is discarded. -/
theorem multiply_rax_low_bits (a b : Nat) :
    multiply_rax a b = (a * b) % 2 ^ 64 := by
  have h : multiply_rax a b = (imulq1 b a).2 := rfl
  rw [h, imulq1_low]

/-- With the output apart from the second input, `mov` then `sub` give the
difference modulo `2^64`. -/
theorem subtract_apart (bd : Binding) (h : bd.r0 ≠ bd.r2) (a b : Nat) :
    subtract_att bd a b = subq b a ∧ subtract_intel bd a b = subq b a := by
  have h' : bd.r2 ≠ bd.r0 := fun e => h e.symm
  constructor
  · show Function.update (Function.update (loadInputs bd a b) bd.r0 _) bd.r0 _ bd.r0 = _
    rw [Function.update_same, Function.update_same, Function.update_noteq h',
      loadInputs_r1, loadInputs_r2]
    rfl
  · show Function.update (Function.update (loadInputs bd a b) bd.r0 _) bd.r0 _ bd.r0 = _
    rw [Function.update_same, Function.update_same, Function.update_noteq h',
      loadInputs_r1, loadInputs_r2]
    rfl

/-- With the output in the register of the second input, `mov` overwrites `b`
before `sub` reads it: the result is `a - a = 0`. -/
theorem subtract_shared (bd : Binding) (h : bd.r0 = bd.r2) (a b : Nat) :
    subtract_att bd a b = 0 ∧ subtract_intel bd a b = 0 := by
  have hz : subq a a = 0 := by
    unfold subq
    simp
  constructor
  · show Function.update (Function.update (loadInputs bd a b) bd.r0 _) bd.r0 _ bd.r0 = _
    rw [Function.update_same, ← h, Function.update_same, loadInputs_r1]
    exact hz
  · show Function.update (Function.update (loadInputs bd a b) bd.r0 _) bd.r0 _ bd.r0 = _
    rw [Function.update_same, ← h, Function.update_same, loadInputs_r1]
    exact hz

/-- C3, at the call `(100, 42)` with the output `%0` in the register of the
input `%2`, which the constraint `"=r"` without `&` allows: `mov` overwrites `b`
before `sub` reads it, and `subtract_att` and `subtract_intel` return 0, not
`100 - 42 = 58`; with the operands in registers of their own they return 58. -/
theorem subtract_shared_register :
    subtract_att sharedBinding 100 42 = 0 ∧
    subtract_intel sharedBinding 100 42 = 0 ∧
    subtract_att apartBinding 100 42 = 58 ∧
    subtract_intel apartBinding 100 42 = 58 := by
  decide

/-! ## Bit scans and population count: proofs -/

theorem rep_succ (body : StringState → StringState) (k : Nat) (s : StringState)
    (h : s.rcx ≠ 0) :
    rep body (k + 1) s = rep body k { body s with rcx := (body s).rcx - 1 } := by
  rw [rep, if_neg h]

theorem advance_up (p : Nat) (h : p + 1 < W64) : advance false p = p + 1 := by
  unfold advance
  simp only [Bool.false_eq_true, if_false]
  exact Nat.mod_eq_of_lt h

/-- A repeated string instruction that writes only at `[rdi]` changes no byte
outside the `rcx` bytes that start at `rdi`, and stops with `rcx = 0`. -/
theorem rep_frame (body : StringState → StringState)
    (hmem : ∀ s a, a ≠ s.rdi → (body s).mem a = s.mem a)
    (hrdi : ∀ s, (body s).rdi = advance s.df s.rdi)
    (hdf : ∀ s, (body s).df = s.df)
    (hrcx : ∀ s, (body s).rcx = s.rcx) :
    ∀ n (s : StringState), s.rcx = n → s.df = false → s.rdi + n ≤ W64 →
      (rep body n s).rcx = 0 ∧
      ∀ a, (a < s.rdi ∨ s.rdi + n ≤ a) → (rep body n s).mem a = s.mem a := by
  intro n
  induction n with
  | zero =>
    intro s h0 _ _
    exact ⟨h0, fun a _ => rfl⟩
  | succ n ih =>
    intro s hn hd hb
    have hne : s.rcx ≠ 0 := by omega
    rw [rep_succ body n s hne]
    rcases Nat.eq_zero_or_pos n with hz | hpos
    · subst hz
      refine ⟨?_, ?_⟩
      · show (body s).rcx - 1 = 0
        rw [hrcx]; omega
      · intro a ha
        show (body s).mem a = s.mem a
        exact hmem s a (by omega)
    · have hadv : (body s).rdi = s.rdi + 1 := by
        rw [hrdi, hd]; exact advance_up _ (by omega)
      have key := ih { body s with rcx := (body s).rcx - 1 }
        (by show (body s).rcx - 1 = n; rw [hrcx]; omega)
        (by show (body s).df = false; rw [hdf]; exact hd)
        (by show (body s).rdi + n ≤ W64; rw [hadv]; omega)
      refine ⟨key.1, ?_⟩
      intro a ha
      have h1 := key.2 a (by
        show a < (body s).rdi ∨ (body s).rdi + n ≤ a
        rw [hadv]; omega)
      rw [h1]
      show (body s).mem a = s.mem a
      exact hmem s a (by omega)

theorem movsb_mem_other (s : StringState) (a : Nat) (h : a ≠ s.rdi) :
    (movsb s).mem a = s.mem a := by
  show Function.update s.mem s.rdi (s.mem s.rsi) a = s.mem a
  exact Function.update_noteq h _ _

theorem stosb_mem_other (v : Nat) (s : StringState) (a : Nat) (h : a ≠ s.rdi) :
    (stosb v s).mem a = s.mem a := by
  show Function.update s.mem s.rdi (v % 256) a = s.mem a
  exact Function.update_noteq h _ _

theorem rep_movsb_frame (n : Nat) (s : StringState) (hn : s.rcx = n) (hd : s.df = false)
    (hb : s.rdi + n ≤ W64) :
    (rep movsb n s).rcx = 0 ∧
    ∀ a, (a < s.rdi ∨ s.rdi + n ≤ a) → (rep movsb n s).mem a = s.mem a :=
  rep_frame movsb movsb_mem_other (fun _ => rfl) (fun _ => rfl) (fun _ => rfl) n s hn hd hb

theorem rep_stosb_frame (v n : Nat) (s : StringState) (hn : s.rcx = n) (hd : s.df = false)
    (hb : s.rdi + n ≤ W64) :
    (rep (stosb v) n s).rcx = 0 ∧
    ∀ a, (a < s.rdi ∨ s.rdi + n ≤ a) → (rep (stosb v) n s).mem a = s.mem a :=
  rep_frame (stosb v) (stosb_mem_other v) (fun _ => rfl) (fun _ => rfl) (fun _ => rfl)
    n s hn hd hb

/-- Forward copy: when no byte is written before it is read as a later source
byte, `rep movsb` leaves at the destination the bytes the source held. -/
theorem rep_movsb_copy : ∀ n (s : StringState), s.rcx = n → s.df = false →
    s.rdi + n ≤ W64 → s.rsi + n ≤ W64 →
    (∀ i j, i < j → j < n → s.rsi + j ≠ s.rdi + i) →
    ∀ i, i < n → (rep movsb n s).mem (s.rdi + i) = s.mem (s.rsi + i) := by
  intro n
  induction n with
  | zero => intro s _ _ _ _ _ i hi; omega
  | succ n ih =>
    intro s hn hd hbd hbs hclob i hi
    have hne : s.rcx ≠ 0 := by omega
    rw [rep_succ movsb n s hne]
    have hmem0 : (movsb s).mem s.rdi = s.mem s.rsi := by
      show Function.update s.mem s.rdi (s.mem s.rsi) s.rdi = s.mem s.rsi
      exact Function.update_same _ _ _
    rcases Nat.eq_zero_or_pos n with hz | hpos
    · subst hz
      have hi0 : i = 0 := by omega
      subst hi0
      show (movsb s).mem (s.rdi + 0) = s.mem (s.rsi + 0)
      rw [Nat.add_zero, Nat.add_zero]; exact hmem0
    · have hrdi : (movsb s).rdi = s.rdi + 1 := by
        show advance s.df s.rdi = s.rdi + 1
        rw [hd]; exact advance_up _ (by omega)
      have hrsi : (movsb s).rsi = s.rsi + 1 := by
        show advance s.df s.rsi = s.rsi + 1
        rw [hd]; exact advance_up _ (by omega)
      let s2 : StringState := { movsb s with rcx := (movsb s).rcx - 1 }
      have h2rcx : s2.rcx = n := by show s.rcx - 1 = n; omega
      have h2df : s2.df = false := hd
      have h2rdi : s2.rdi = s.rdi + 1 := hrdi
      have h2rsi : s2.rsi = s.rsi + 1 := hrsi
      show (rep movsb n s2).mem (s.rdi + i) = s.mem (s.rsi + i)
      rcases Nat.eq_zero_or_pos i with hi0 | hipos
      · subst hi0
        have hfr := (rep_movsb_frame n s2 h2rcx h2df (by rw [h2rdi]; omega)).2 (s.rdi + 0)
          (by rw [h2rdi]; omega)
        rw [hfr, Nat.add_zero, Nat.add_zero]
        exact hmem0
      · obtain ⟨i', rfl⟩ : ∃ i', i = i' + 1 := ⟨i - 1, by omega⟩
        have key := ih s2 h2rcx h2df (by rw [h2rdi]; omega) (by rw [h2rsi]; omega)
          (by
            intro a b hab hb
            rw [h2rdi, h2rsi]
            have := hclob (a + 1) (b + 1) (by omega) (by omega)
            omega)
          i' (by omega)
        rw [h2rdi, h2rsi] at key
        have e1 : s.rdi + (i' + 1) = s.rdi + 1 + i' := by omega
        have e2 : s.rsi + (i' + 1) = s.rsi + 1 + i' := by omega
        rw [e1, e2, key]
        show (movsb s).mem (s.rsi + 1 + i') = s.mem (s.rsi + 1 + i')
        apply movsb_mem_other
        have := hclob 0 (i' + 1) (by omega) (by omega)
        omega

/-- The bytes that `rep stosb` writes all hold the byte of `al`. -/
theorem rep_stosb_fill (v : Nat) : ∀ n (s : StringState), s.rcx = n → s.df = false →
    s.rdi + n ≤ W64 →
    ∀ i, i < n → (rep (stosb v) n s).mem (s.rdi + i) = v % 256 := by
  intro n
  induction n with
  | zero => intro s _ _ _ i hi; omega
  | succ n ih =>
    intro s hn hd hbd i hi
    have hne : s.rcx ≠ 0 := by omega
    rw [rep_succ (stosb v) n s hne]
    have hmem0 : (stosb v s).mem s.rdi = v % 256 := by
      show Function.update s.mem s.rdi (v % 256) s.rdi = v % 256
      exact Function.update_same _ _ _
    rcases Nat.eq_zero_or_pos n with hz | hpos
    · subst hz
      have hi0 : i = 0 := by omega
      subst hi0
      show (stosb v s).mem (s.rdi + 0) = v % 256
      rw [Nat.add_zero]; exact hmem0
    · have hrdi : (stosb v s).rdi = s.rdi + 1 := by
        show advance s.df s.rdi = s.rdi + 1
        rw [hd]; exact advance_up _ (by omega)
      let s2 : StringState := { stosb v s with rcx := (stosb v s).rcx - 1 }
      have h2rcx : s2.rcx = n := by show s.rcx - 1 = n; omega
      have h2df : s2.df = false := hd
      have h2rdi : s2.rdi = s.rdi + 1 := hrdi
      show (rep (stosb v) n s2).mem (s.rdi + i) = v % 256
      rcases Nat.eq_zero_or_pos i with hi0 | hipos
      · subst hi0
        have hfr := (rep_stosb_frame v n s2 h2rcx h2df (by rw [h2rdi]; omega)).2 (s.rdi + 0)
          (by rw [h2rdi]; omega)
        rw [hfr, Nat.add_zero]
        exact hmem0
      · obtain ⟨i', rfl⟩ : ∃ i', i = i' + 1 := ⟨i - 1, by omega⟩
        have key := ih s2 h2rcx h2df (by rw [h2rdi]; omega) i' (by omega)
        rw [h2rdi] at key
        have e1 : s.rdi + (i' + 1) = s.rdi + 1 + i' := by omega
        rw [e1, key]

/-- When the asm statement is executed and the regions are disjoint, every
destination byte holds what the source byte held, the source is unchanged and
the repeat count has run down to 0. -/
theorem copy_memory_executed_disjoint (df : Bool) (m : Nat → Nat) (dest src n : Nat)
    (hd : dest + n ≤ 2 ^ 64) (hs : src + n ≤ 2 ^ 64)
    (hdis : dest + n ≤ src ∨ src + n ≤ dest) :
    (∀ i, i < n → copy_memory_asm true df m dest src n (dest + i) = m (src + i)) ∧
    (∀ i, i < n → copy_memory_asm true df m dest src n (src + i) = m (src + i)) ∧
    (copy_memory_asm_state true df m dest src n).rcx = 0 ∧
    (∀ i, i < n → copy_memory_intel true df m dest src n (dest + i) = m (src + i)) ∧
    (∀ i, i < n → copy_memory_intel true df m dest src n (src + i) = m (src + i)) := by
  let s0 : StringState := { mem := m, rdi := dest, rsi := src, rcx := n, df := false }
  have hasm : copy_memory_asm_state true df m dest src n = rep movsb n s0 := rfl
  have hasm2 : copy_memory_asm true df m dest src n = (rep movsb n s0).mem := rfl
  have hint : copy_memory_intel true df m dest src n = (rep movsb n s0).mem := rfl
  have hcopy : ∀ i, i < n → (rep movsb n s0).mem (dest + i) = m (src + i) :=
    rep_movsb_copy n s0 rfl rfl hd hs (by
      intro i j hij hj
      show src + j ≠ dest + i
      omega)
  have hframe := rep_movsb_frame n s0 rfl rfl hd
  have hsrc : ∀ i, i < n → (rep movsb n s0).mem (src + i) = m (src + i) := by
    intro i hi
    exact hframe.2 (src + i) (by show src + i < dest ∨ dest + n ≤ src + i; omega)
  rw [hasm, hasm2, hint]
  exact ⟨hcopy, hsrc, hframe.1, hcopy, hsrc⟩

/-- When the asm statement is deleted, the copy functions leave the memory as
it was. -/
theorem copy_memory_not_kept (df : Bool) (m : Nat → Nat) (dest src n : Nat) :
    copy_memory_asm false df m dest src n = m ∧
    copy_memory_intel false df m dest src n = m :=
  ⟨rfl, rfl⟩

/-- C8, on the memory whose byte at address `p` is `p mod 256`, with the
disjoint regions `dest = 16`, `src = 3`, `n = 8`: the asm statement of
`copy_memory_asm` and `copy_memory_intel` is not `volatile` and none of its
outputs is read afterwards, so the compiler may delete it, as `gcc -O2` does;
then the byte at `dest` stays 16 and is not the source byte 3.  When the
statement is executed the byte is 3. -/
theorem copy_memory_deleted :
    copy_memory_asm false false (fun p => p % 256) 16 3 8 16 = 16 ∧
    copy_memory_intel false false (fun p => p % 256) 16 3 8 16 = 16 ∧
    (fun p => p % 256) 3 = 3 ∧
    copy_memory_asm true false (fun p => p % 256) 16 3 8 16 = 3 ∧
    copy_memory_intel true false (fun p => p % 256) 16 3 8 16 = 3 := by
  decide

/-- When the asm statement is executed, every byte of the region holds the
value and the repeat count has run down to 0. -/
theorem fill_memory_executed (df : Bool) (m : Nat → Nat) (dest v n : Nat)
    (hv : v < 256) (hd : dest + n ≤ 2 ^ 64) :
    (∀ i, i < n → fill_memory_asm true df m dest v n (dest + i) = v) ∧
    (fill_memory_asm_state true df m dest v n).rcx = 0 ∧
    (∀ i, i < n → fill_memory_intel true df m dest v n (dest + i) = v) := by
  let s0 : StringState := { mem := m, rdi := dest, rsi := 0, rcx := n, df := false }
  have hasm : fill_memory_asm_state true df m dest v n = rep (stosb v) n s0 := rfl
  have hasm2 : fill_memory_asm true df m dest v n = (rep (stosb v) n s0).mem := rfl
  have hint : fill_memory_intel true df m dest v n = (rep (stosb v) n s0).mem := rfl
  have hfill : ∀ i, i < n → (rep (stosb v) n s0).mem (dest + i) = v := by
    intro i hi
    have := rep_stosb_fill v n s0 rfl rfl hd i hi
    rw [Nat.mod_eq_of_lt hv] at this
    exact this
  rw [hasm, hasm2, hint]
  exact ⟨hfill, (rep_stosb_frame v n s0 rfl rfl hd).1, hfill⟩

/-- When the asm statement is deleted, the fill functions leave the memory as
it was. -/
theorem fill_memory_not_kept (df : Bool) (m : Nat → Nat) (dest v n : Nat) :
    fill_memory_asm false df m dest v n = m ∧
    fill_memory_intel false df m dest v n = m :=
  ⟨rfl, rfl⟩

/-- C9, on the memory whose byte at address `p` is `p mod 256`, with
`dest = 16`, `v = 171`, `n = 5`: the asm statement of `fill_memory_asm` and
`fill_memory_intel` is not `volatile` and none of its outputs is read
afterwards, so the compiler may delete it, as `gcc -O2` does; then the byte at
`dest` stays 16 and is not 171.  When the statement is executed the byte is
171. -/
theorem fill_memory_deleted :
    fill_memory_asm false false (fun p => p % 256) 16 171 5 16 = 16 ∧
    fill_memory_intel false false (fun p => p % 256) 16 171 5 16 = 16 ∧
    fill_memory_asm true false (fun p => p % 256) 16 171 5 16 = 171 ∧
    fill_memory_intel true false (fun p => p % 256) 16 171 5 16 = 171 := by
  decide

/-! ## Atomic functions: proofs -/

/-- C10: compare-and-swap success: for every `X` and `Y`, when the location
holds `X`, `compare_and_swap ptr X Y` (and its Intel twin) returns 1 and the
location then holds `Y`; from 100, `atomic_increment` followed by
`compare_and_swap ptr 101 200` returns 1 and leaves 200. -/
theorem compare_and_swap_success (X Y : Nat) :
    compare_and_swap X X Y = (1, Y) ∧
    compare_and_swap_intel X X Y = (1, Y) ∧
    compare_and_swap (atomic_increment 100) 101 200 = (1, 200) := by
  refine ⟨?_, ?_, by decide⟩
  · simp [compare_and_swap, cmpxchgq, sete]
  · simp [compare_and_swap_intel, cmpxchgq, sete]

/-- C11: compare-and-swap failure: for every `X`, `Z`, `Y` with `Z ≠ X`, when the
location holds `X`, `compare_and_swap ptr Z Y` (and its Intel twin) returns 0 and
the location still holds `X`; the return value is always 0 or 1, and it is 1
exactly when the location held the expected value. -/
theorem compare_and_swap_failure (X Z Y : Nat) :
    (Z ≠ X → compare_and_swap X Z Y = (0, X) ∧ compare_and_swap_intel X Z Y = (0, X)) ∧
    ((compare_and_swap X Z Y).1 = 0 ∨ (compare_and_swap X Z Y).1 = 1) ∧
    ((compare_and_swap X Z Y).1 = 1 ↔ X = Z) ∧
    ((compare_and_swap_intel X Z Y).1 = 0 ∨ (compare_and_swap_intel X Z Y).1 = 1) ∧
    ((compare_and_swap_intel X Z Y).1 = 1 ↔ X = Z) := by
  by_cases h : Z = X
  · subst h
    simp [compare_and_swap, compare_and_swap_intel, cmpxchgq, sete]
  · have h2 : ¬ X = Z := fun e => h e.symm
    simp [compare_and_swap, compare_and_swap_intel, cmpxchgq, sete, h, h2]

theorem compare_and_swap_failure_witness :
    compare_and_swap 100 101 200 = (0, 100) ∧ compare_and_swap_intel 100 101 200 = (0, 100) :=
  (compare_and_swap_failure 100 101 200).1 (by decide)

/-- C12: for every `X` and `Y`, when the location holds `X`, `atomic_exchange ptr Y`
(and `atomic_exchange_intel ptr Y`) returns `X` and the location then holds `Y`,
also when `X = Y`. -/
theorem atomic_exchange_swaps (X Y : Nat) :
    atomic_exchange X Y = (X, Y) ∧
    atomic_exchange_intel X Y = (X, Y) ∧
    atomic_exchange X X = (X, X) :=
  ⟨rfl, rfl, rfl⟩

/-- C13: for every 64-bit word `v` held at the location, after `atomic_increment`
the location holds `v + 1` modulo `2^64`; read as a two's-complement `int64_t`
the value goes up by one, except that `INT64_MAX` becomes `INT64_MIN`; the
function returns only the new contents of the location, and 100 becomes 101. -/
theorem atomic_increment_wraps (v : Nat) (hv : v < 2 ^ 64) :
    atomic_increment v = (v + 1) % 2 ^ 64 ∧
    toSigned64 (atomic_increment v)
      = (if toSigned64 v = 2 ^ 63 - 1 then -(2 ^ 63) else toSigned64 v + 1) ∧
    toSigned64 (atomic_increment (2 ^ 63 - 1)) = -(2 ^ 63) ∧
    atomic_increment 100 = 101 := by
  refine ⟨rfl, ?_, by decide, by decide⟩
  have h : atomic_increment v = (v + 1) % 2 ^ 64 := rfl
  rw [h]
  unfold toSigned64
  have hW : ((W64 : Nat) : Int) = 18446744073709551616 := by norm_num [W64]
  rw [hW]
  rcases Nat.lt_or_ge (v + 1) (2 ^ 64) with h1 | h1
  · rw [Nat.mod_eq_of_lt h1]
    split_ifs <;> omega
  · have hv2 : v = 2 ^ 64 - 1 := by omega
    subst hv2
    decide

theorem atomic_increment_wraps_witness :
    atomic_increment (2 ^ 64 - 1) = ((2 ^ 64 - 1) + 1) % 2 ^ 64 ∧
    toSigned64 (atomic_increment (2 ^ 64 - 1))
      = (if toSigned64 (2 ^ 64 - 1) = 2 ^ 63 - 1 then -(2 ^ 63)
          else toSigned64 (2 ^ 64 - 1) + 1) ∧
    toSigned64 (atomic_increment (2 ^ 63 - 1)) = -(2 ^ 63) ∧
    atomic_increment 100 = 101 :=
  atomic_increment_wraps (2 ^ 64 - 1) (by decide)

/-- The Intel twin of the increment adds 1 when its asm statement is executed
and leaves the word when the statement is deleted. -/
theorem atomic_increment_intel_cases (v : Nat) :
    atomic_increment_intel true v = (v + 1) % 2 ^ 64 ∧ atomic_increment_intel false v = v :=
  ⟨rfl, rfl⟩

/-- When the asm statement is executed and the destination precedes the source,
the bytes at the destination are the bytes that were at the source, also for
overlapping regions. -/
theorem copy_memory_executed_forward (df : Bool) (m : Nat → Nat) (dest src n : Nat)
    (hle : dest ≤ src) (hs : src + n ≤ 2 ^ 64) :
    (∀ i, i < n → copy_memory_asm true df m dest src n (dest + i) = m (src + i)) ∧
    (copy_memory_asm_state true df m dest src n).rcx = 0 := by
  let s0 : StringState := { mem := m, rdi := dest, rsi := src, rcx := n, df := false }
  have hasm : copy_memory_asm_state true df m dest src n = rep movsb n s0 := rfl
  have hasm2 : copy_memory_asm true df m dest src n = (rep movsb n s0).mem := rfl
  have hd : dest + n ≤ W64 := by
    have : dest + n ≤ src + n := by omega
    exact le_trans this hs
  rw [hasm, hasm2]
  refine ⟨?_, (rep_movsb_frame n s0 rfl rfl hd).1⟩
  exact rep_movsb_copy n s0 rfl rfl hd hs (by
    intro i j hij hj
    show src + j ≠ dest + i
    omega)

/-- C18, on the memory whose byte at address `p` is `p mod 256`, with the
overlapping regions `dest = 3`, `src = 5`, `n = 8` (destination first): the asm
statement of `copy_memory_asm` is not `volatile` and none of its outputs is read
afterwards, so the compiler may delete it, as `gcc -O2` does; then the byte at
`dest` stays 3 and is not the byte 5 that was at `src`.  When the statement is
executed the byte is 5. -/
theorem copy_memory_forward_deleted :
    copy_memory_asm false false (fun p => p % 256) 3 5 8 3 = 3 ∧
    (fun p => p % 256) 5 = 5 ∧
    copy_memory_asm true false (fun p => p % 256) 3 5 8 3 = 5 := by
  decide

/-! ## CPU vendor string and conditional moves: proofs -/

theorem store32_at (buf : Nat → Nat) (k w j : Nat) (hj : j < 4) :
    store32 buf k w (4 * k + j) = byteOf w j := by
  unfold store32
  interval_cases j <;> simp [Function.update_apply]

theorem store32_other (buf : Nat → Nat) (k w p : Nat) (hp : p < 4 * k ∨ 4 * k + 4 ≤ p) :
    store32 buf k w p = buf p := by
  unfold store32
  simp only [Function.update_apply]
  have h0 : p ≠ 4 * k := by omega
  have h1 : p ≠ 4 * k + 1 := by omega
  have h2 : p ≠ 4 * k + 2 := by omega
  have h3 : p ≠ 4 * k + 3 := by omega
  simp [h0, h1, h2, h3]

theorem bytes_of_word (w : Nat) (hw : w < 2 ^ 32) :
    byteOf w 0 + 256 * byteOf w 1 + 256 ^ 2 * byteOf w 2 + 256 ^ 3 * byteOf w 3 = w := by
  unfold byteOf
  norm_num
  omega

/-- C19: for every four words `(eax, ebx, ecx, edx)` that the identification
primitive reports for leaf 0, `get_cpu_vendor` (and `get_cpu_vendor_intel`)
leaves in bytes 0..3 of the buffer the little-endian bytes of `ebx`, in bytes
4..7 those of `edx`, in bytes 8..11 those of `ecx`, and 0 in byte 12; the words
`0x756E6547`, `0x49656E69`, `0x6C65746E` give the text `GenuineIntel`. -/
theorem get_cpu_vendor_layout (hw : Nat → Nat × Nat × Nat × Nat) (vendor : Nat → Nat) :
    (∀ j, j < 4 → get_cpu_vendor hw vendor j = byteOf (hw 0).2.1 j) ∧
    (∀ j, j < 4 → get_cpu_vendor hw vendor (4 + j) = byteOf (hw 0).2.2.2 j) ∧
    (∀ j, j < 4 → get_cpu_vendor hw vendor (8 + j) = byteOf (hw 0).2.2.1 j) ∧
    get_cpu_vendor hw vendor 12 = 0 ∧
    (∀ p, p ≤ 12 → get_cpu_vendor_intel hw vendor p = get_cpu_vendor hw vendor p) ∧
    (List.range 13).map
        (get_cpu_vendor (fun _ => (0, 0x756E6547, 0x6C65746E, 0x49656E69)) vendor)
      = [0x47, 0x65, 0x6E, 0x75, 0x69, 0x6E, 0x65, 0x49, 0x6E, 0x74, 0x65, 0x6C, 0] ∧
    [0x47, 0x65, 0x6E, 0x75, 0x69, 0x6E, 0x65, 0x49, 0x6E, 0x74, 0x65, 0x6C].map Char.ofNat
      = ['G', 'e', 'n', 'u', 'i', 'n', 'e', 'I', 'n', 't', 'e', 'l'] := by
  have key : ∀ (h : Nat → Nat × Nat × Nat × Nat),
      get_cpu_vendor h vendor
        = Function.update (store32 (store32 (store32 vendor 0 (h 0).2.1) 1 (h 0).2.2.2)
            2 (h 0).2.2.1) 12 0 := fun _ => rfl
  refine ⟨?_, ?_, ?_, ?_, fun _ _ => rfl, ?_, by decide⟩
  · intro j hj
    rw [key, Function.update_noteq (by omega), store32_other _ _ _ _ (by omega),
      store32_other _ _ _ _ (by omega)]
    have := store32_at vendor 0 (hw 0).2.1 j hj
    simpa using this
  · intro j hj
    rw [key, Function.update_noteq (by omega), store32_other _ _ _ _ (by omega)]
    have := store32_at (store32 vendor 0 (hw 0).2.1) 1 (hw 0).2.2.2 j hj
    simpa using this
  · intro j hj
    rw [key, Function.update_noteq (by omega)]
    have := store32_at (store32 (store32 vendor 0 (hw 0).2.1) 1 (hw 0).2.2.2) 2
      (hw 0).2.2.1 j hj
    simpa using this
  · rw [key]; exact Function.update_same _ _ _
  · rw [key]
    simp [List.range, List.range.loop, store32, byteOf, Function.update_apply]

theorem toSigned32_toWord32 (a : Int) (hlo : -(2 ^ 31) ≤ a) (hhi : a < 2 ^ 31) :
    toSigned32 (toWord32 a) = a := by
  unfold toSigned32 toWord32
  have hW : ((W32 : Nat) : Int) = 4294967296 := by norm_num [W32]
  rw [hW]
  have hnn : 0 ≤ a % 4294967296 := Int.emod_nonneg _ (by norm_num)
  have hlt : a % 4294967296 < 4294967296 := Int.emod_lt_of_pos _ (by norm_num)
  have hcast : (((a % 4294967296).toNat : Nat) : Int) = a % 4294967296 :=
    Int.toNat_of_nonneg hnn
  split_ifs with h <;> omega

theorem toWord32_lt (a : Int) : toWord32 a < 2 ^ 32 := by
  unfold toWord32
  have hW : ((W32 : Nat) : Int) = 4294967296 := by norm_num [W32]
  rw [hW]
  have hnn : 0 ≤ a % 4294967296 := Int.emod_nonneg _ (by norm_num)
  have hlt : a % 4294967296 < 4294967296 := Int.emod_lt_of_pos _ (by norm_num)
  omega

/-- The condition `l` after `cmp src, dst` on 32-bit words holds exactly when
`dst` is below `src` as signed numbers. -/
theorem condL_cmpl (src dst : Nat) (hs : src < 2 ^ 32) (hd : dst < 2 ^ 32) :
    condL (cmpl src dst) = true ↔ toSigned32 dst < toSigned32 src := by
  have hW : ((W32 : Nat) : Int) = 4294967296 := by norm_num [W32]
  have hr : ((subl src dst : Nat) : Int) = ((dst : Int) - (src : Int)) % 4294967296 := by
    unfold subl
    rw [hW]
    exact Int.toNat_of_nonneg (Int.emod_nonneg _ (by norm_num))
  have hnn : 0 ≤ ((dst : Int) - (src : Int)) % 4294967296 := Int.emod_nonneg _ (by norm_num)
  have hlt : ((dst : Int) - (src : Int)) % 4294967296 < 4294967296 :=
    Int.emod_lt_of_pos _ (by norm_num)
  have hcase : ((subl src dst : Nat) : Int) = (dst : Int) - (src : Int) ∨
      ((subl src dst : Nat) : Int) = (dst : Int) - (src : Int) + 4294967296 := by
    rw [hr]; omega
  unfold condL cmpl
  simp only [bne_iff_ne, ne_eq, decide_eq_decide]
  unfold toSigned32
  rw [hW]
  split_ifs <;> omega

/-- With the output apart from the second input, `max_intel` is the conditional
expression `a < b ? b : a` under signed comparison. -/
theorem max_intel_apart (bd : Binding) (h : bd.r0 ≠ bd.r2) (a b : Int)
    (hal : -(2 ^ 31) ≤ a) (hah : a < 2 ^ 31) (hbl : -(2 ^ 31) ≤ b) (hbh : b < 2 ^ 31) :
    max_intel bd a b = (if a < b then b else a) := by
  have h' : bd.r2 ≠ bd.r0 := fun e => h e.symm
  have hcond := condL_cmpl (toWord32 b) (toWord32 a) (toWord32_lt b) (toWord32_lt a)
  rw [toSigned32_toWord32 a hal hah, toSigned32_toWord32 b hbl hbh] at hcond
  have hdef : max_intel bd a b
      = toSigned32 (if condL (cmpl (toWord32 b) (toWord32 a)) then toWord32 b
          else toWord32 a) := by
    show toSigned32 (Function.update (Function.update
      (loadInputs bd (toWord32 a) (toWord32 b)) bd.r0 _) bd.r0 _ bd.r0) = _
    rw [Function.update_same, Function.update_same, Function.update_noteq h',
      loadInputs_r1, loadInputs_r2]
    rfl
  rw [hdef]
  by_cases hlt : a < b
  · rw [if_pos (hcond.2 hlt), if_pos hlt]
    exact toSigned32_toWord32 b hbl hbh
  · have hc : ¬ condL (cmpl (toWord32 b) (toWord32 a)) = true := fun hc => hlt (hcond.1 hc)
    rw [if_neg hc, if_neg hlt]
    exact toSigned32_toWord32 a hal hah

/-- With the output in the register of the second input, `mov` overwrites `b`
before `cmp` reads it: `max_intel` returns `a`. -/
theorem max_intel_shared (bd : Binding) (h : bd.r0 = bd.r2) (a b : Int)
    (hal : -(2 ^ 31) ≤ a) (hah : a < 2 ^ 31) :
    max_intel bd a b = a := by
  have hcond := condL_cmpl (toWord32 a) (toWord32 a) (toWord32_lt a) (toWord32_lt a)
  have hc : ¬ condL (cmpl (toWord32 a) (toWord32 a)) = true :=
    fun hc => lt_irrefl _ (hcond.1 hc)
  have hdef : max_intel bd a b
      = toSigned32 (if condL (cmpl (toWord32 a) (toWord32 a)) then toWord32 a
          else toWord32 a) := by
    show toSigned32 (Function.update (Function.update
      (loadInputs bd (toWord32 a) (toWord32 b)) bd.r0 _) bd.r0 _ bd.r0) = _
    rw [Function.update_same, Function.update_same, ← h, Function.update_same,
      loadInputs_r1]
    rfl
  rw [hdef, if_neg hc]
  exact toSigned32_toWord32 a hal hah

/-- C20, at the call `max_intel(15, 42)` with the output `%0` in the register of
the input `%2`, which the constraint `"=r"` without `&` allows: `mov %0, %1`
overwrites `b` before `cmp %0, %2` reads it, and `max_intel` returns 15, not the
value 42 of `15 < 42 ? 42 : 15`; with the operands in registers of their own it
returns 42. -/
theorem max_intel_shared_register :
    max_intel sharedBinding 15 42 = 15 ∧
    (if (15 : Int) < 42 then (42 : Int) else 15) = 42 ∧
    max_intel apartBinding 15 42 = 42 := by
  decide

/-! ## Dot product: proofs -/

theorem toSigned64_of_lt (x : Nat) (h : x < 2 ^ 63) : toSigned64 x = (x : Int) := by
  unfold toSigned64
  rw [if_pos h]

theorem toSigned64_of_ge (x : Nat) (h : 2 ^ 63 ≤ x) (h2 : x < 2 ^ 64) : toSigned64 x < 0 := by
  unfold toSigned64
  rw [if_neg (by omega)]
  have hW : ((W64 : Nat) : Int) = 18446744073709551616 := by norm_num [W64]
  rw [hW]
  omega

/-- The condition `l` after `cmp src, dst` on 64-bit words holds exactly when
`dst` is below `src` as signed numbers. -/
theorem condL_cmpq (src dst : Nat) (hs : src < 2 ^ 64) (hd : dst < 2 ^ 64) :
    condL (cmpq src dst) = true ↔ toSigned64 dst < toSigned64 src := by
  have hW : ((W64 : Nat) : Int) = 18446744073709551616 := by norm_num [W64]
  have hr : ((subq src dst : Nat) : Int)
      = ((dst : Int) - (src : Int)) % 18446744073709551616 := by
    unfold subq
    rw [hW]
    exact Int.toNat_of_nonneg (Int.emod_nonneg _ (by norm_num))
  have hnn : 0 ≤ ((dst : Int) - (src : Int)) % 18446744073709551616 :=
    Int.emod_nonneg _ (by norm_num)
  have hlt : ((dst : Int) - (src : Int)) % 18446744073709551616 < 18446744073709551616 :=
    Int.emod_lt_of_pos _ (by norm_num)
  have hcase : ((subq src dst : Nat) : Int) = (dst : Int) - (src : Int) ∨
      ((subq src dst : Nat) : Int) = (dst : Int) - (src : Int) + 18446744073709551616 := by
    rw [hr]; omega
  unfold condL cmpq
  simp only [bne_iff_ne, ne_eq, decide_eq_decide]
  unfold toSigned64
  rw [hW]
  split_ifs <;> omega

/-- The exit test `cmpq $4, n ; jl` of the loop succeeds exactly when `n`, read
as a signed number, is below 4. -/
theorem dot_exit_iff (n : Nat) (hn : n < 2 ^ 64) :
    condL (cmpq 4 n) = true ↔ toSigned64 n < 4 := by
  have h := condL_cmpq 4 n (by norm_num) hn
  have h4 : toSigned64 4 = 4 := by decide
  rw [h4] at h
  exact h

/-- For a length below `2^63` the loop consumes the `n / 4` full chunks: started
after `k` chunks it ends after `n / 4`, the count reduced to `n % 4`. -/
theorem dot_loop_chunks {α : Type} [Add α] [Mul α] [Zero α] (m : Nat → α) (a b n : Nat)
    (hn : n < 2 ^ 63) : ∀ fuel k, 4 * k ≤ n → n / 4 - k < fuel →
    dot_product_sse_loop m fuel (a + 4 * k) (b + 4 * k) (n - 4 * k) (laneRegister m a b k)
      = some (a + 4 * (n / 4), b + 4 * (n / 4), n % 4, laneRegister m a b (n / 4)) := by
  intro fuel
  induction fuel with
  | zero => intro k _ h; omega
  | succ f ih =>
    intro k hk hf
    rw [dot_product_sse_loop]
    have hsig : toSigned64 (n - 4 * k) = ((n - 4 * k : Nat) : Int) :=
      toSigned64_of_lt _ (by omega)
    by_cases hlt : n - 4 * k < 4
    · have hc : condL (cmpq 4 (n - 4 * k)) = true :=
        (dot_exit_iff _ (by omega)).2 (by rw [hsig]; omega)
      rw [if_pos hc]
      have hq : n / 4 = k := by omega
      have hr : n - 4 * k = n % 4 := by omega
      rw [hq, hr]
    · have hc : ¬ condL (cmpq 4 (n - 4 * k)) = true := by
        intro hc
        have := (dot_exit_iff _ (by omega)).1 hc
        rw [hsig] at this
        omega
      rw [if_neg hc]
      have e1 : a + 4 * k + 4 = a + 4 * (k + 1) := by omega
      have e2 : b + 4 * k + 4 = b + 4 * (k + 1) := by omega
      have e3 : subq 4 (n - 4 * k) = n - 4 * (k + 1) := by
        rw [subq_of_le 4 (n - 4 * k) (by omega) (by omega)]; omega
      have e4 : addps (mulps (movups_load m (b + 4 * k)) (movups_load m (a + 4 * k)))
          (laneRegister m a b k) = laneRegister m a b (k + 1) := rfl
      simp only [e1, e2, e3, e4]
      exact ih (k + 1) (by omega) (by omega)

/-- For a length `n` of `2^63` or more the signed exit test succeeds at once:
the loop consumes no chunk and leaves the whole count. -/
theorem dot_loop_negative {α : Type} [Add α] [Mul α] (m : Nat → α) (a b n fuel : Nat)
    (x : Xmm α) (h1 : 2 ^ 63 ≤ n) (h2 : n < 2 ^ 64) :
    dot_product_sse_loop m (fuel + 1) a b n x = some (a, b, n, x) := by
  rw [dot_product_sse_loop]
  have hc : condL (cmpq 4 n) = true :=
    (dot_exit_iff n h2).2 (lt_trans (toSigned64_of_ge n h1 h2) (by norm_num))
  rw [if_pos hc]

/-- The scalar loop adds the products of the remaining elements one by one. -/
theorem dot_rest_spec {α : Type} [Add α] [Mul α] (m : Nat → α) (a b start r : Nat)
    (acc : α) (hr : r < 2 ^ 64) : ∀ fuel i, i ≤ r → r - i < fuel →
    dot_product_sse_rest m (a + start) (b + start) r fuel i (addProducts m a b start acc i)
      = some (addProducts m a b start acc r) := by
  intro fuel
  induction fuel with
  | zero => intro i _ h; omega
  | succ f ih =>
    intro i hi hf
    rw [dot_product_sse_rest]
    by_cases hlt : i < r
    · rw [if_pos hlt]
      have e1 : (i + 1) % W64 = i + 1 := Nat.mod_eq_of_lt (by show i + 1 < 2 ^ 64; omega)
      have e2 : addProducts m a b start acc i + m (a + start + i) * m (b + start + i)
          = addProducts m a b start acc (i + 1) := rfl
      simp only [e1, e2]
      exact ih (i + 1) (by omega) (by omega)
    · rw [if_neg hlt]
      have : i = r := by omega
      rw [this]

/-- The value of `dot_product_sse` for every 64-bit length: the horizontal sum
of the lane accumulators of the chunks consumed, then the products of all the
elements left, one by one. -/
theorem dot_product_sse_value {α : Type} [Add α] [Mul α] [Zero α] (m : Nat → α)
    (a b n : Nat) (hn : n < 2 ^ 64) :
    dot_product_sse m a b n
      = some (addProducts m a b (4 * chunksConsumed n)
          ((laneAcc m a b 0 (chunksConsumed n) + laneAcc m a b 2 (chunksConsumed n))
            + (laneAcc m a b 1 (chunksConsumed n) + laneAcc m a b 3 (chunksConsumed n)))
          (n - 4 * chunksConsumed n)) := by
  unfold dot_product_sse chunksConsumed
  by_cases h63 : n < 2 ^ 63
  · rw [if_pos h63]
    have hloop := dot_loop_chunks m a b n h63 (n / 4 + 1) 0 (by omega) (by omega)
    simp only [Nat.mul_zero, Nat.add_zero, Nat.sub_zero] at hloop
    have hz : (xorps_self : Xmm α) = laneRegister m a b 0 := rfl
    simp only [hz, hloop]
    have hrest := dot_rest_spec m a b (4 * (n / 4)) (n % 4)
      ((laneAcc m a b 0 (n / 4) + laneAcc m a b 2 (n / 4))
        + (laneAcc m a b 1 (n / 4) + laneAcc m a b 3 (n / 4)))
      (by omega) (n % 4 + 1) 0 (by omega) (by omega)
    have hsub : n - 4 * (n / 4) = n % 4 := by omega
    rw [hsub]
    exact hrest
  · rw [if_neg h63]
    have hloop := dot_loop_negative m a b n (n / 4) (xorps_self : Xmm α) (by omega) hn
    simp only [hloop]
    have hrest := dot_rest_spec m a b 0 n
      ((laneAcc m a b 0 0 + laneAcc m a b 2 0) + (laneAcc m a b 1 0 + laneAcc m a b 3 0))
      hn (n + 1) 0 (by omega) (by omega)
    simp only [Nat.mul_zero, Nat.add_zero, Nat.sub_zero] at hrest ⊢
    exact hrest

theorem laneAcc_sum {α : Type} [AddCommMonoid α] [Mul α] (m : Nat → α) (a b : Nat) :
    ∀ k, (laneAcc m a b 0 k + laneAcc m a b 2 k) + (laneAcc m a b 1 k + laneAcc m a b 3 k)
      = ∑ i in Finset.range (4 * k), m (a + i) * m (b + i) := by
  intro k
  induction k with
  | zero => simp [laneAcc]
  | succ k ih =>
    have h4 : 4 * (k + 1) = 4 * k + 1 + 1 + 1 + 1 := by omega
    rw [h4, Finset.sum_range_succ, Finset.sum_range_succ, Finset.sum_range_succ,
      Finset.sum_range_succ, ← ih]
    simp only [laneAcc, Nat.add_zero, Nat.add_assoc]
    abel

theorem addProducts_sum {α : Type} [AddCommMonoid α] [Mul α] (m : Nat → α)
    (a b start : Nat) (acc : α) :
    ∀ r, addProducts m a b start acc r
      = acc + ∑ i in Finset.range r, m (a + (start + i)) * m (b + (start + i)) := by
  intro r
  induction r with
  | zero => simp [addProducts]
  | succ r ih =>
    rw [Finset.sum_range_succ, ← add_assoc, ← ih]
    simp only [addProducts, Nat.add_assoc]

/-- C15: over exact arithmetic (addition associative and commutative with 0 as
neutral element), for every 64-bit length `n`, also below 4 and not a multiple
of 4, `dot_product_sse a b n` is the sum of `a[i] * b[i]` over `i < n`;
`[1,2,3,4]·[5,6,7,8] = 70` and `[1,2,3]·[4,5,6] = 32`. -/
theorem dot_product_exact {α : Type} [AddCommMonoid α] [Mul α] (m : Nat → α)
    (a b n : Nat) (hn : n < 2 ^ 64) :
    dot_product_sse m a b n = some (∑ i in Finset.range n, m (a + i) * m (b + i)) ∧
    dot_product_sse (memOfList [1, 2, 3, 4, 5, 6, 7, 8]) 0 4 4 = some 70 ∧
    dot_product_sse (memOfList [1, 2, 3, 4, 5, 6]) 0 3 3 = some 32 := by
  refine ⟨?_, by decide, by decide⟩
  rw [dot_product_sse_value m a b n hn, addProducts_sum, laneAcc_sum,
    ← Finset.sum_range_add (fun i => m (a + i) * m (b + i))]
  have hle : 4 * chunksConsumed n ≤ n := by
    unfold chunksConsumed
    split_ifs <;> omega
  rw [Nat.add_sub_cancel' hle]

theorem dot_product_exact_witness :
    dot_product_sse (memOfList [2, 3, 5, 7, 11, 13, 1, 1, 1, 1, 1, 1]) 0 6 6
      = some (∑ i in Finset.range 6,
          memOfList [2, 3, 5, 7, 11, 13, 1, 1, 1, 1, 1, 1] (0 + i)
            * memOfList [2, 3, 5, 7, 11, 13, 1, 1, 1, 1, 1, 1] (6 + i)) ∧
    dot_product_sse (memOfList [1, 2, 3, 4, 5, 6, 7, 8]) 0 4 4 = some 70 ∧
    dot_product_sse (memOfList [1, 2, 3, 4, 5, 6]) 0 3 3 = some 32 :=
  dot_product_exact (memOfList [2, 3, 5, 7, 11, 13, 1, 1, 1, 1, 1, 1]) 0 6 6 (by decide)

/-- C17, at the length `n = 2^63`: the 4-wide loop of `dot_product_sse` consumes
no chunk, leaves both pointers where they were and leaves all `2^63` elements to
the scalar loop, although `n / 4 = 2^61` and `n % 4 = 0`: the exit test
`cmpq $4, n ; jl` reads the unsigned length as a signed number. -/
theorem dot_loop_signed_exit {α : Type} [Add α] [Mul α] (m : Nat → α) (a b : Nat)
    (x : Xmm α) :
    dot_product_sse_loop m (2 ^ 63 / 4 + 1) a b (2 ^ 63) x = some (a, b, 2 ^ 63, x) ∧
    2 ^ 63 / 4 = 2 ^ 61 ∧ 2 ^ 63 % 4 = 0 ∧
    condL (cmpq 4 (2 ^ 63)) = true ∧ ¬ (2 ^ 63 < 4) :=
  ⟨dot_loop_negative m a b (2 ^ 63) (2 ^ 63 / 4) x (le_refl _) (by norm_num),
    by norm_num, by norm_num, by decide, by norm_num⟩

/-! ## Vector addition: proofs -/

theorem movups_store_other {α : Type} (m : Nat → α) (p : Nat) (v : Xmm α) (q : Nat)
    (hq : q < p ∨ p + 4 ≤ q) : movups_store m p v q = m q := by
  unfold movups_store
  simp only [Function.update_apply]
  have h0 : q ≠ p := by omega
  have h1 : q ≠ p + 1 := by omega
  have h2 : q ≠ p + 2 := by omega
  have h3 : q ≠ p + 3 := by omega
  simp [h0, h1, h2, h3]

theorem movups_store_at {α : Type} (m : Nat → α) (p : Nat) (v : Xmm α) :
    movups_store m p v p = v.x0 ∧ movups_store m p v (p + 1) = v.x1 ∧
    movups_store m p v (p + 2) = v.x2 ∧ movups_store m p v (p + 3) = v.x3 := by
  unfold movups_store
  simp [Function.update_apply]

/-- One pass of the 4-wide loop stores the four sums of its chunk. -/
theorem vector_add_chunk_at {α : Type} [Add α] (m : Nat → α) (result a b i t : Nat)
    (ht : t < 4) :
    movups_store m (result + i) (addps (movups_load m (b + i)) (movups_load m (a + i)))
        (result + (i + t))
      = m (a + (i + t)) + m (b + (i + t)) := by
  have h := movups_store_at m (result + i)
    (addps (movups_load m (b + i)) (movups_load m (a + i)))
  have e : ∀ x, result + (i + x) = result + i + x := fun x => by omega
  have ea : ∀ x, a + (i + x) = a + i + x := fun x => by omega
  have eb : ∀ x, b + (i + x) = b + i + x := fun x => by omega
  rw [e, ea, eb]
  interval_cases t
  · exact h.1
  · exact h.2.1
  · exact h.2.2.1
  · exact h.2.2.2

/-- The 4-wide loop of `vector_add_sse` ends, and keeps the invariant: the
elements of `result` below the index hold the element-wise sums, and memory
outside them is as on entry. -/
theorem vector_add_chunks_spec {α : Type} [Add α] (m0 : Nat → α) (result a b n : Nat)
    (hn : n + 4 < 2 ^ 64)
    (hda : result + n ≤ a ∨ a + n ≤ result) (hdb : result + n ≤ b ∨ b + n ≤ result) :
    ∀ fuel i (m : Nat → α), i ≤ n → (n - i) / 4 < fuel →
      (∀ j, j < i → m (result + j) = m0 (a + j) + m0 (b + j)) →
      (∀ p, (p < result ∨ result + i ≤ p) → m p = m0 p) →
      ∃ i' m', vector_add_sse_chunks result a b n fuel i m = some (i', m') ∧ i' ≤ n ∧
        (∀ j, j < i' → m' (result + j) = m0 (a + j) + m0 (b + j)) ∧
        (∀ p, (p < result ∨ result + i' ≤ p) → m' p = m0 p) := by
  intro fuel
  induction fuel with
  | zero => intro i m _ h; omega
  | succ f ih =>
    intro i m hi hf hsum hframe
    rw [vector_add_sse_chunks]
    have hmod : (i + 4) % W64 = i + 4 := Nat.mod_eq_of_lt (by show i + 4 < 2 ^ 64; omega)
    rw [hmod]
    by_cases hle : i + 4 ≤ n
    · rw [if_pos hle]
      simp only []
      apply ih (i + 4) _ hle (by omega)
      · intro j hj
        rcases Nat.lt_or_ge j i with h1 | h1
        · rw [movups_store_other _ _ _ _ (by omega)]
          exact hsum j h1
        · obtain ⟨t, rfl⟩ : ∃ t, j = i + t := ⟨j - i, by omega⟩
          rw [vector_add_chunk_at m result a b i t (by omega),
            hframe (a + (i + t)) (by omega), hframe (b + (i + t)) (by omega)]
      · intro p hp
        rw [movups_store_other _ _ _ _ (by omega)]
        exact hframe p (by omega)
    · rw [if_neg hle]
      exact ⟨i, m, rfl, hi, hsum, hframe⟩

/-- The scalar loop of `vector_add_sse` ends, and completes the invariant up to
the length. -/
theorem vector_add_rest_spec {α : Type} [Add α] (m0 : Nat → α) (result a b n : Nat)
    (hn : n < 2 ^ 64)
    (hda : result + n ≤ a ∨ a + n ≤ result) (hdb : result + n ≤ b ∨ b + n ≤ result) :
    ∀ fuel i (m : Nat → α), i ≤ n → n - i < fuel →
      (∀ j, j < i → m (result + j) = m0 (a + j) + m0 (b + j)) →
      (∀ p, (p < result ∨ result + i ≤ p) → m p = m0 p) →
      ∃ m', vector_add_sse_rest result a b n fuel i m = some m' ∧
        (∀ j, j < n → m' (result + j) = m0 (a + j) + m0 (b + j)) ∧
        (∀ p, (p < result ∨ result + n ≤ p) → m' p = m0 p) := by
  intro fuel
  induction fuel with
  | zero => intro i m _ h; omega
  | succ f ih =>
    intro i m hi hf hsum hframe
    rw [vector_add_sse_rest]
    by_cases hlt : i < n
    · rw [if_pos hlt]
      have hmod : (i + 1) % W64 = i + 1 := Nat.mod_eq_of_lt (by show i + 1 < 2 ^ 64; omega)
      simp only [hmod]
      apply ih (i + 1) _ hlt (by omega)
      · intro j hj
        rcases Nat.lt_or_ge j i with h1 | h1
        · rw [Function.update_noteq (by omega)]
          exact hsum j h1
        · have hji : j = i := by omega
          subst hji
          rw [Function.update_same, hframe (a + j) (by omega), hframe (b + j) (by omega)]
      · intro p hp
        rw [Function.update_noteq (by omega)]
        exact hframe p (by omega)
    · rw [if_neg hlt]
      have hin : i = n := by omega
      subst hin
      exact ⟨m, rfl, hsum, hframe⟩

/-- The function `vector_add_sse` returns, with the element-wise sums in the
`n` elements of `result` and every other element of memory as on entry. -/
theorem vector_add_sse_spec {α : Type} [Add α] (m : Nat → α) (result a b n : Nat)
    (hn : n + 4 < 2 ^ 64)
    (hda : result + n ≤ a ∨ a + n ≤ result) (hdb : result + n ≤ b ∨ b + n ≤ result) :
    ∃ m', vector_add_sse m result a b n = some m' ∧
      (∀ j, j < n → m' (result + j) = m (a + j) + m (b + j)) ∧
      (∀ p, (p < result ∨ result + n ≤ p) → m' p = m p) := by
  obtain ⟨i, m1, h1, hi, hsum, hframe⟩ :=
    vector_add_chunks_spec m result a b n hn hda hdb (n / 4 + 1) 0 m (Nat.zero_le _)
      (by omega) (fun j hj => by omega) (fun p _ => rfl)
  obtain ⟨m2, h2, hsum2, hframe2⟩ :=
    vector_add_rest_spec m result a b n (by omega) hda hdb (n + 1) i m1 hi (by omega)
      hsum hframe
  refine ⟨m2, ?_, hsum2, hframe2⟩
  unfold vector_add_sse
  rw [h1]
  exact h2

/-- C14: for every length `n`, a multiple of 4 or not, of arrays of floats in the
64-bit address space, with `result` apart from `a` and `b`, after
`vector_add_sse result a b n` every `result[i]` with `i < n` is the
single-precision sum `a[i] + b[i]`, for the elements of the 4-wide loop and for
those of the scalar loop alike; `[1,2,3,4] + [5,6,7,8] = [6,8,10,12]`. -/
theorem vector_add_sse_elementwise {α : Type} [Add α] (m : Nat → α) (result a b n : Nat)
    (hn : 4 * n ≤ 2 ^ 64)
    (hda : result + n ≤ a ∨ a + n ≤ result) (hdb : result + n ≤ b ∨ b + n ≤ result) :
    (∃ m', vector_add_sse m result a b n = some m' ∧
      ∀ i, i < n → m' (result + i) = m (a + i) + m (b + i)) ∧
    (vector_add_sse (memOfList [1, 2, 3, 4, 5, 6, 7, 8]) 8 0 4 4).map
        (fun m' => [m' 8, m' 9, m' 10, m' 11])
      = some [6, 8, 10, 12] := by
  refine ⟨?_, by decide⟩
  obtain ⟨m', h, hsum, _⟩ := vector_add_sse_spec m result a b n (by omega) hda hdb
  exact ⟨m', h, hsum⟩

theorem vector_add_sse_elementwise_witness :
    (∃ m', vector_add_sse (memOfList [1, 2, 3, 4, 5, 6, 7, 8, 9, 10, 11, 12, 13, 14])
        14 0 7 7 = some m' ∧
      ∀ i, i < 7 → m' (14 + i)
        = memOfList [1, 2, 3, 4, 5, 6, 7, 8, 9, 10, 11, 12, 13, 14] (0 + i)
          + memOfList [1, 2, 3, 4, 5, 6, 7, 8, 9, 10, 11, 12, 13, 14] (7 + i)) ∧
    (vector_add_sse (memOfList [1, 2, 3, 4, 5, 6, 7, 8]) 8 0 4 4).map
        (fun m' => [m' 8, m' 9, m' 10, m' 11])
      = some [6, 8, 10, 12] :=
  vector_add_sse_elementwise (memOfList [1, 2, 3, 4, 5, 6, 7, 8, 9, 10, 11, 12, 13, 14])
    14 0 7 7 (by decide) (by decide) (by decide)

/-! ## Minimum, multiply variants and round trips: proofs -/

/-- The condition `g` after `cmp src, dst` on 32-bit words holds exactly when
`dst` is above `src` as signed numbers. -/
theorem condG_cmpl (src dst : Nat) (hs : src < 2 ^ 32) (hd : dst < 2 ^ 32) :
    condG (cmpl src dst) = true ↔ toSigned32 src < toSigned32 dst := by
  have hW : ((W32 : Nat) : Int) = 4294967296 := by norm_num [W32]
  have hr : ((subl src dst : Nat) : Int) = ((dst : Int) - (src : Int)) % 4294967296 := by
    unfold subl
    rw [hW]
    exact Int.toNat_of_nonneg (Int.emod_nonneg _ (by norm_num))
  have hnn : 0 ≤ ((dst : Int) - (src : Int)) % 4294967296 := Int.emod_nonneg _ (by norm_num)
  have hlt : ((dst : Int) - (src : Int)) % 4294967296 < 4294967296 :=
    Int.emod_lt_of_pos _ (by norm_num)
  have hcase : ((subl src dst : Nat) : Int) = (dst : Int) - (src : Int) ∨
      ((subl src dst : Nat) : Int) = (dst : Int) - (src : Int) + 4294967296 := by
    rw [hr]; omega
  unfold condG cmpl
  simp only [Bool.and_eq_true, Bool.not_eq_true', decide_eq_false_iff_not, beq_iff_eq,
    decide_eq_decide]
  unfold toSigned32
  rw [hW]
  split_ifs <;> omega

/-- With the output apart from the second input, `min_intel` is the conditional
expression `a > b ? b : a` under signed comparison. -/
theorem min_intel_apart (bd : Binding) (h : bd.r0 ≠ bd.r2) (a b : Int)
    (hal : -(2 ^ 31) ≤ a) (hah : a < 2 ^ 31) (hbl : -(2 ^ 31) ≤ b) (hbh : b < 2 ^ 31) :
    min_intel bd a b = (if a > b then b else a) := by
  have h' : bd.r2 ≠ bd.r0 := fun e => h e.symm
  have hcond := condG_cmpl (toWord32 b) (toWord32 a) (toWord32_lt b) (toWord32_lt a)
  rw [toSigned32_toWord32 a hal hah, toSigned32_toWord32 b hbl hbh] at hcond
  have hdef : min_intel bd a b
      = toSigned32 (if condG (cmpl (toWord32 b) (toWord32 a)) then toWord32 b
          else toWord32 a) := by
    show toSigned32 (Function.update (Function.update
      (loadInputs bd (toWord32 a) (toWord32 b)) bd.r0 _) bd.r0 _ bd.r0) = _
    rw [Function.update_same, Function.update_same, Function.update_noteq h',
      loadInputs_r1, loadInputs_r2]
    rfl
  rw [hdef]
  by_cases hgt : a > b
  · rw [if_pos (hcond.2 hgt), if_pos hgt]
    exact toSigned32_toWord32 b hbl hbh
  · have hc : ¬ condG (cmpl (toWord32 b) (toWord32 a)) = true := fun hc => hgt (hcond.1 hc)
    rw [if_neg hc, if_neg hgt]
    exact toSigned32_toWord32 a hal hah

/-- With the output in the register of the second input, `mov` overwrites `b`
before `cmp` reads it: `min_intel` returns `a`. -/
theorem min_intel_shared (bd : Binding) (h : bd.r0 = bd.r2) (a b : Int)
    (hal : -(2 ^ 31) ≤ a) (hah : a < 2 ^ 31) :
    min_intel bd a b = a := by
  have hcond := condG_cmpl (toWord32 a) (toWord32 a) (toWord32_lt a) (toWord32_lt a)
  have hc : ¬ condG (cmpl (toWord32 a) (toWord32 a)) = true :=
    fun hc => lt_irrefl _ (hcond.1 hc)
  have hdef : min_intel bd a b
      = toSigned32 (if condG (cmpl (toWord32 a) (toWord32 a)) then toWord32 a
          else toWord32 a) := by
    show toSigned32 (Function.update (Function.update
      (loadInputs bd (toWord32 a) (toWord32 b)) bd.r0 _) bd.r0 _ bd.r0) = _
    rw [Function.update_same, Function.update_same, ← h, Function.update_same,
      loadInputs_r1]
    rfl
  rw [hdef, if_neg hc]
  exact toSigned32_toWord32 a hal hah

/-- C21, at the call `min_intel(42, 15)` with the output `%0` in the register of
the input `%2`, which the constraint `"=r"` without `&` allows: `mov %0, %1`
overwrites `b` before `cmp %0, %2` reads it, and `min_intel` returns 42, not the
value 15 of `42 > 15 ? 15 : 42`; with the operands in registers of their own it
returns 15. -/
theorem min_intel_shared_register :
    min_intel sharedBinding 42 15 = 42 ∧
    (if (42 : Int) > 15 then (15 : Int) else 42) = 15 ∧
    min_intel apartBinding 42 15 = 15 ∧
    min_intel apartBinding 15 42 = 15 := by
  decide

theorem imulq2_low (src dst : Nat) : imulq2 src dst = (dst * src) % W64 := by
  unfold imulq2
  apply Int.ofNat.inj
  show ((((toSigned64 dst * toSigned64 src) % (W64 : Int)).toNat : Nat) : Int)
      = (((dst * src) % W64 : Nat) : Int)
  rw [Int.toNat_of_nonneg (Int.emod_nonneg _ (by norm_num [W64])), Int.natCast_mod]
  exact signed_mul_emod dst src

/-- C22: the two multiply variants agree: for every pair `a`, `b` (so for all
64-bit ones), `multiply_rax a b`, the one-operand signed widening `imul` keeping
`rax`, equals `multiply_intel a b`, the two-operand truncating `imul`; both are
`(a * b) mod 2^64`, and both give 35 for `(5, 7)`. -/
theorem multiply_variants_agree (a b : Nat) :
    multiply_rax a b = multiply_intel a b ∧
    multiply_intel a b = (a * b) % 2 ^ 64 ∧
    multiply_rax 5 7 = 35 ∧ multiply_intel 5 7 = 35 := by
  have h1 : multiply_rax a b = (imulq1 b a).2 := rfl
  have h2 : multiply_intel a b = imulq2 b a := rfl
  refine ⟨?_, ?_, by decide, by decide⟩
  · rw [h1, h2, imulq1_low, imulq2_low]
  · rw [h2, imulq2_low]

/-- With the outputs apart from the second inputs, wrapping add and subtract
are mutually inverse. -/
theorem add_subtract_apart (bd : Binding) (h : bd.r0 ≠ bd.r2) (a b : Nat)
    (ha : a < 2 ^ 64) (hb : b < 2 ^ 64) :
    subtract_att bd (basic_add bd a b) b = a ∧
    basic_add bd (subtract_att bd a b) b = a := by
  have hlt : (a + b) % 2 ^ 64 < 2 ^ 64 := Nat.mod_lt _ (by norm_num)
  constructor
  · rw [(basic_add_apart bd h a b).1, (subtract_apart bd h _ b).1]
    rcases Nat.lt_or_ge ((a + b) % 2 ^ 64) b with h1 | h1
    · rw [subq_of_lt b _ h1 hb]; omega
    · rw [subq_of_le b _ h1 hlt]; omega
  · rw [(subtract_apart bd h a b).1, (basic_add_apart bd h _ b).1]
    rcases Nat.lt_or_ge a b with h1 | h1
    · rw [subq_of_lt b a h1 hb]; omega
    · rw [subq_of_le b a h1 ha]; omega

/-- C26, at `a = 10`, `b = 21` with the output `%0` of both templates in the
register of the input `%2`, which the constraint `"=r"` without `&` allows:
`basic_add` returns `2a = 20` and `subtract_att` returns 0, so
`subtract_att (basic_add 10 21) 21` and `basic_add (subtract_att 10 21) 21` are
both 0, not 10; with the operands in registers of their own both are 10. -/
theorem add_subtract_shared_register :
    subtract_att sharedBinding (basic_add sharedBinding 10 21) 21 = 0 ∧
    basic_add sharedBinding (subtract_att sharedBinding 10 21) 21 = 0 ∧
    subtract_att apartBinding (basic_add apartBinding 10 21) 21 = 10 ∧
    basic_add apartBinding (subtract_att apartBinding 10 21) 21 = 10 := by
  decide

/-- C27: atomic exchange round trip: for every `X` and `Y`, with the location
holding `X`, after `r = atomic_exchange ptr Y` the call `atomic_exchange ptr r`
returns `Y` and the location holds `X` again; likewise for the Intel twin. -/
theorem atomic_exchange_round_trip (X Y : Nat) :
    atomic_exchange (atomic_exchange X Y).2 (atomic_exchange X Y).1 = (Y, X) ∧
    atomic_exchange_intel (atomic_exchange_intel X Y).2 (atomic_exchange_intel X Y).1
      = (Y, X) ∧
    (atomic_exchange X Y).1 = X :=
  ⟨rfl, rfl, rfl⟩

/-! ## Frame properties and bit-count relation: proofs -/

/-- C23: block copy writes only in the destination: for every `n` and every
memory, `copy_memory_asm dest src n` (and `copy_memory_intel`) leaves every byte
outside the range `[dest, dest + n)` unchanged, whether or not the regions
overlap and whether or not the compiler keeps the asm statement, and with
`n = 0` leaves the whole memory unchanged; when the statement is executed the
repeat count runs down to 0. -/
theorem copy_memory_frame (kept df : Bool) (m : Nat → Nat) (dest src n : Nat)
    (hd : dest + n ≤ 2 ^ 64) :
    (∀ p, (p < dest ∨ dest + n ≤ p) → copy_memory_asm kept df m dest src n p = m p) ∧
    (∀ p, (p < dest ∨ dest + n ≤ p) → copy_memory_intel kept df m dest src n p = m p) ∧
    (copy_memory_asm_state true df m dest src n).rcx = 0 ∧
    copy_memory_asm kept df m dest src 0 = m ∧
    copy_memory_intel kept df m dest src 0 = m := by
  let s0 : StringState := { mem := m, rdi := dest, rsi := src, rcx := n, df := false }
  have hasm : copy_memory_asm_state true df m dest src n = rep movsb n s0 := rfl
  have hasm2 : copy_memory_asm true df m dest src n = (rep movsb n s0).mem := rfl
  have hint : copy_memory_intel true df m dest src n = (rep movsb n s0).mem := rfl
  have hframe := rep_movsb_frame n s0 rfl rfl hd
  cases kept with
  | false => exact ⟨fun _ _ => rfl, fun _ _ => rfl, by rw [hasm]; exact hframe.1, rfl, rfl⟩
  | true =>
    rw [hasm, hasm2, hint]
    exact ⟨hframe.2, hframe.2, hframe.1, rfl, rfl⟩

theorem copy_memory_frame_witness :
    (∀ p, (p < 4 ∨ 4 + 5 ≤ p) → copy_memory_asm true true (fun a => a % 256) 4 2 5 p
        = (fun a => a % 256) p) ∧
    (∀ p, (p < 4 ∨ 4 + 5 ≤ p) → copy_memory_intel true true (fun a => a % 256) 4 2 5 p
        = (fun a => a % 256) p) ∧
    (copy_memory_asm_state true true (fun a => a % 256) 4 2 5).rcx = 0 ∧
    copy_memory_asm true true (fun a => a % 256) 4 2 0 = (fun a => a % 256) ∧
    copy_memory_intel true true (fun a => a % 256) 4 2 0 = (fun a => a % 256) :=
  copy_memory_frame true true (fun a => a % 256) 4 2 5 (by decide)

/-- The 4-wide loop of `vector_add_sse` ends and writes only inside the first
`n` elements of `result`, whatever `a` and `b` overlap. -/
theorem vector_add_chunks_frame {α : Type} [Add α] (m0 : Nat → α) (result a b n : Nat)
    (hn : n + 4 < 2 ^ 64) :
    ∀ fuel i (m : Nat → α), i ≤ n → (n - i) / 4 < fuel →
      (∀ p, (p < result ∨ result + n ≤ p) → m p = m0 p) →
      ∃ i' m', vector_add_sse_chunks result a b n fuel i m = some (i', m') ∧ i' ≤ n ∧
        (∀ p, (p < result ∨ result + n ≤ p) → m' p = m0 p) := by
  intro fuel
  induction fuel with
  | zero => intro i m _ h; omega
  | succ f ih =>
    intro i m hi hf hframe
    rw [vector_add_sse_chunks]
    have hmod : (i + 4) % W64 = i + 4 := Nat.mod_eq_of_lt (by show i + 4 < 2 ^ 64; omega)
    rw [hmod]
    by_cases hle : i + 4 ≤ n
    · rw [if_pos hle]
      simp only []
      apply ih (i + 4) _ hle (by omega)
      intro p hp
      rw [movups_store_other _ _ _ _ (by omega)]
      exact hframe p hp
    · rw [if_neg hle]
      exact ⟨i, m, rfl, hi, hframe⟩

/-- The scalar loop of `vector_add_sse` ends and writes only inside the first
`n` elements of `result`. -/
theorem vector_add_rest_frame {α : Type} [Add α] (m0 : Nat → α) (result a b n : Nat)
    (hn : n < 2 ^ 64) :
    ∀ fuel i (m : Nat → α), i ≤ n → n - i < fuel →
      (∀ p, (p < result ∨ result + n ≤ p) → m p = m0 p) →
      ∃ m', vector_add_sse_rest result a b n fuel i m = some m' ∧
        (∀ p, (p < result ∨ result + n ≤ p) → m' p = m0 p) := by
  intro fuel
  induction fuel with
  | zero => intro i m _ h; omega
  | succ f ih =>
    intro i m hi hf hframe
    rw [vector_add_sse_rest]
    by_cases hlt : i < n
    · rw [if_pos hlt]
      have hmod : (i + 1) % W64 = i + 1 := Nat.mod_eq_of_lt (by show i + 1 < 2 ^ 64; omega)
      simp only [hmod]
      apply ih (i + 1) _ hlt (by omega)
      intro p hp
      rw [Function.update_noteq (by omega)]
      exact hframe p hp
    · rw [if_neg hlt]
      exact ⟨m, rfl, hframe⟩

/-- C24: the loops of `vector_add_sse` (and of `vector_add_intel`) never write
past the requested length: for every length `n` of an array of floats in the
64-bit address space, a multiple of 4 or not, the function returns, every
`result[j]` with `j ≥ n` is unchanged, every element of memory outside
`result[0..n)` is unchanged, and so are `a[i]` and `b[i]`, `i < n`, when the
array is apart from `result`. -/
theorem vector_add_frame {α : Type} [Add α] (m : Nat → α) (result a b n : Nat)
    (hn : 4 * n ≤ 2 ^ 64) :
    ∃ m', vector_add_sse m result a b n = some m' ∧
      vector_add_intel m result a b n = some m' ∧
      (∀ j, n ≤ j → m' (result + j) = m (result + j)) ∧
      (∀ p, (p < result ∨ result + n ≤ p) → m' p = m p) ∧
      (∀ i, i < n → (result + n ≤ a ∨ a + n ≤ result) → m' (a + i) = m (a + i)) ∧
      (∀ i, i < n → (result + n ≤ b ∨ b + n ≤ result) → m' (b + i) = m (b + i)) := by
  obtain ⟨i, m1, h1, hi, hframe⟩ :=
    vector_add_chunks_frame m result a b n (by omega) (n / 4 + 1) 0 m (Nat.zero_le _)
      (by omega) (fun p _ => rfl)
  obtain ⟨m2, h2, hframe2⟩ :=
    vector_add_rest_frame m result a b n (by omega) (n + 1) i m1 hi (by omega) hframe
  have hsse : vector_add_sse m result a b n = some m2 := by
    unfold vector_add_sse
    rw [h1]
    exact h2
  have hintel : vector_add_intel m result a b n = some m2 := by
    unfold vector_add_intel
    rw [h1]
    exact h2
  refine ⟨m2, hsse, hintel, ?_, hframe2, ?_, ?_⟩
  · intro j hj
    exact hframe2 (result + j) (by omega)
  · intro k hk hdis
    exact hframe2 (a + k) (by omega)
  · intro k hk hdis
    exact hframe2 (b + k) (by omega)

theorem vector_add_frame_witness :
    ∃ m', vector_add_sse (memOfList [1, 2, 3, 4, 5, 6, 7, 8, 9, 10, 11, 12, 13, 14, 21, 22, 23, 24])
          14 0 7 3 = some m' ∧
      vector_add_intel (memOfList [1, 2, 3, 4, 5, 6, 7, 8, 9, 10, 11, 12, 13, 14, 21, 22, 23, 24])
          14 0 7 3 = some m' ∧
      (∀ j, 3 ≤ j → m' (14 + j)
        = memOfList [1, 2, 3, 4, 5, 6, 7, 8, 9, 10, 11, 12, 13, 14, 21, 22, 23, 24] (14 + j)) ∧
      (∀ p, (p < 14 ∨ 14 + 3 ≤ p) → m' p
        = memOfList [1, 2, 3, 4, 5, 6, 7, 8, 9, 10, 11, 12, 13, 14, 21, 22, 23, 24] p) ∧
      (∀ i, i < 3 → (14 + 3 ≤ 0 ∨ 0 + 3 ≤ 14) → m' (0 + i)
        = memOfList [1, 2, 3, 4, 5, 6, 7, 8, 9, 10, 11, 12, 13, 14, 21, 22, 23, 24] (0 + i)) ∧
      (∀ i, i < 3 → (14 + 3 ≤ 7 ∨ 7 + 3 ≤ 14) → m' (7 + i)
        = memOfList [1, 2, 3, 4, 5, 6, 7, 8, 9, 10, 11, 12, 13, 14, 21, 22, 23, 24] (7 + i)) :=
  vector_add_frame (memOfList [1, 2, 3, 4, 5, 6, 7, 8, 9, 10, 11, 12, 13, 14, 21, 22, 23, 24])
    14 0 7 3 (by decide)

end InlineAsm
